import Mathlib

/-!
A verification development for the compeek unified-diff parser.

The definitions below are a shallow embedding of the parser in
`src/server/git-diff.ts` together with the argument-validation helpers of
`src/cli/utils.ts`.  Strings are modelled as lists of characters, the
asynchronous git and filesystem collaborators are modelled as explicit
oracle functions, and fallible TypeScript code is modelled with
`Option`/`Except`.  All definitions are total and executable.
-/

namespace Compeek

/-- The `type` field of a parsed diff line (`DiffLine['type']`). -/
inductive LineType where
  | context
  | added
  | deleted
deriving DecidableEq, Repr

/-- `DiffLine` from `src/types/diff.ts`: optional fields become `Option`. -/
structure DiffLine where
  type : LineType
  content : List Char
  oldLineNumber : Option Nat
  newLineNumber : Option Nat
deriving DecidableEq, Repr

/-- `DiffChunk` from `src/types/diff.ts`. -/
structure DiffChunk where
  oldStart : Nat
  oldLines : Nat
  newStart : Nat
  newLines : Nat
  lines : List DiffLine
deriving DecidableEq, Repr

/-- File status union of `DiffFile['status']`. -/
inductive FileStatus where
  | added
  | modified
  | deleted
  | renamed
deriving DecidableEq, Repr

/-- `DiffFile` from `src/types/diff.ts`; the optional `oldFilename`,
`isBinary` and `isImage` fields become `Option` (with `none` for a field
that the parser leaves `undefined`). -/
structure DiffFile where
  filename : List Char
  oldFilename : Option (List Char)
  status : FileStatus
  additions : Nat
  deletions : Nat
  chunks : List DiffChunk
  isBinary : Option Bool
  isImage : Option Bool
deriving DecidableEq, Repr

/-- `DiffResponse` from `src/types/diff.ts`. -/
structure DiffResponse where
  files : List DiffFile
  commit : List Char
  isEmpty : Bool
deriving DecidableEq, Repr

/-- JavaScript whitespace as used by `String.prototype.trim` (the ASCII
part, which is all the parser ever meets). -/
def isWhite (c : Char) : Bool :=
  c == ' ' || c == '\t' || c == '\n' || c == '\r' || c == '\x0b' || c == '\x0c'

/-- Whether a string is empty or whitespace-only, i.e. `!s || s.trim() === ''`. -/
def isBlank (s : List Char) : Bool := s.all isWhite

/-- `s.split('\n')` on a character list; like in JavaScript, the result is
never empty and a trailing newline yields a trailing empty line. -/
def splitLines : List Char → List (List Char)
  | [] => [[]]
  | c :: rest =>
    let r := splitLines rest
    if c = '\n' then [] :: r
    else
      match r with
      | [] => [[c]]
      | l :: ls => (c :: l) :: ls

/-- The file-block separator of `diffText.split(/^diff --git /m)`. -/
def marker : List Char := ['d', 'i', 'f', 'f', ' ', '-', '-', 'g', 'i', 't', ' ']

/-- Character-by-character scan implementing `split(/^diff --git /m)`:
whenever the separator occurs at the start of a line the accumulated piece
is emitted and the separator's characters are skipped (the `Nat` argument
counts separator characters still to skip, so the recursion stays
structural). -/
def splitBlocksAux : List Char → List Char → Bool → Nat → List (List Char)
  | [], acc, _, _ => [acc.reverse]
  | c :: rest, acc, atStart, 0 =>
    if atStart && marker.isPrefixOf (c :: rest) then
      acc.reverse :: splitBlocksAux rest [] false (marker.length - 1)
    else
      splitBlocksAux rest (c :: acc) (c == '\n') 0
  | _ :: rest, acc, _, k + 1 => splitBlocksAux rest acc false k

/-- `diffText.split(/^diff --git /m)`. -/
def splitBlocks (text : List Char) : List (List Char) :=
  splitBlocksAux text [] true 0

/-- Maximum of a list of naturals, `none` on the empty list. -/
def maxOfList (l : List Nat) : Option Nat :=
  l.foldl (fun acc x => match acc with | none => some x | some m => some (Nat.max m x)) none

/-- The match of `/^a\/(.+) b\/(.+)$/` on a line: both groups are nonempty
runs of non-newline characters and the greedy first group takes the last
possible ` b/` split.  Returns `(old, new)` capture groups. -/
def matchFilePair (line : List Char) : Option (List Char × List Char) :=
  if line.contains '\n' then none
  else
    match line with
    | 'a' :: '/' :: rest =>
      let ps := (List.range rest.length).filter (fun p =>
        decide (1 ≤ p) && ((" b/".toList).isPrefixOf (rest.drop p)) &&
          decide (p + 3 < rest.length))
      match maxOfList ps with
      | some p => some (rest.take p, rest.drop (p + 3))
      | none => none
    | _ => none

/-- Longest run of leading decimal digits (`\d+` with greedy matching),
returned together with the remainder. -/
def takeDigits : List Char → List Char × List Char
  | [] => ([], [])
  | c :: rest =>
    if c.isDigit then
      let p := takeDigits rest
      (c :: p.1, p.2)
    else ([], c :: rest)

/-- `parseInt` on a digit string. -/
def digitsToNat (ds : List Char) : Nat :=
  ds.foldl (fun a c => a * 10 + (c.toNat - 48)) 0

/-- The optional `(?:,(\d+))?` group: consumed only when a comma followed by
at least one digit is present; otherwise nothing is consumed. -/
def optCount : List Char → Option (List Char) × List Char
  | ',' :: rest =>
    let p := takeDigits rest
    if p.1 = [] then (none, ',' :: rest) else (some p.1, p.2)
  | l => (none, l)

/-- The hunk-header regex `/^@@ -(\d+)(?:,(\d+))? \+(\d+)(?:,(\d+))? @@/`
with the `parseInt(match[i] || '1')` defaulting of `parseChunks`: returns
`(oldStart, oldLines, newStart, newLines)`. -/
def parseHunkHeader (line : List Char) : Option (Nat × Nat × Nat × Nat) :=
  if ("@@ -".toList).isPrefixOf line then
    let p1 := takeDigits (line.drop 4)
    if p1.1 = [] then none
    else
      let q1 := optCount p1.2
      if (" +".toList).isPrefixOf q1.2 then
        let p2 := takeDigits (q1.2.drop 2)
        if p2.1 = [] then none
        else
          let q2 := optCount p2.2
          if (" @@".toList).isPrefixOf q2.2 then
            some (digitsToNat p1.1, (q1.1.map digitsToNat).getD 1,
              digitsToNat p2.1, (q2.1.map digitsToNat).getD 1)
          else none
      else none
  else none

/-- State of the `parseChunks` scan: finalized chunks, the currently open
chunk, and the running `oldLineNumber`/`newLineNumber` counters. -/
structure ChunkState where
  chunks : List DiffChunk
  cur : Option DiffChunk
  oldLN : Nat
  newLN : Nat
deriving DecidableEq, Repr

/-- One iteration of the `for (const line of lines)` loop in `parseChunks`. -/
def chunkStep (st : ChunkState) (line : List Char) : ChunkState :=
  if (['@', '@'] : List Char).isPrefixOf line then
    match parseHunkHeader line with
    | some (oldStart, oldLines, newStart, newLines) =>
      { chunks := st.chunks ++ (match st.cur with | some c => [c] | none => []),
        cur := some { oldStart := oldStart, oldLines := oldLines,
                      newStart := newStart, newLines := newLines, lines := [] },
        oldLN := oldStart, newLN := newStart }
    | none => st
  else
    match st.cur, line with
    | some c, ch :: rest =>
      if ch == ' ' || ch == '+' || ch == '-' then
        let t := if ch == '+' then LineType.added
          else if ch == '-' then LineType.deleted else LineType.context
        let dl : DiffLine :=
          { type := t, content := rest,
            oldLineNumber := if t = LineType.added then none else some st.oldLN,
            newLineNumber := if t = LineType.deleted then none else some st.newLN }
        { chunks := st.chunks,
          cur := some { c with lines := c.lines ++ [dl] },
          oldLN := if t = LineType.added then st.oldLN else st.oldLN + 1,
          newLN := if t = LineType.deleted then st.newLN else st.newLN + 1 }
      else st
    | _, _ => st

/-- The initial state of the `parseChunks` scan. -/
def initChunkState : ChunkState :=
  { chunks := [], cur := none, oldLN := 0, newLN := 0 }

/-- `parseChunks` from `git-diff.ts`. -/
def parseChunks (lines : List (List Char)) : List DiffChunk :=
  let st := lines.foldl chunkStep initChunkState
  st.chunks ++ (match st.cur with | some c => [c] | none => [])

/-- `line.startsWith(m)` scan over a block's lines, as in the
`lines.find(...)` marker searches (only truthiness of the result is ever
used, so this is the boolean version). -/
def hasMarkerLine (m : List Char) (lines : List (List Char)) : Bool :=
  lines.any (fun l => m.isPrefixOf l)

/-- `hay.includes(needle)` substring test. -/
def containsSub (needle hay : List Char) : Bool :=
  hay.tails.any (fun t => needle.isPrefixOf t)

/-- `lines.find(line => line.includes('Binary files'))`, as a boolean. -/
def hasBinaryLine (lines : List (List Char)) : Bool :=
  lines.any (fun l => containsSub ("Binary files".toList) l)

/-- `filename.lastIndexOf('.')`, `none` when there is no dot. -/
def lastDotIdx (l : List Char) : Option Nat :=
  maxOfList ((List.range l.length).filter (fun i => decide (l.get? i = some '.')))

/-- The extension whitelist of `isImageFile`. -/
def imageExtensions : List (List Char) :=
  [".png".toList, ".jpg".toList, ".jpeg".toList, ".gif".toList,
   ".bmp".toList, ".svg".toList, ".webp".toList]

/-- `isImageFile` from `git-diff.ts`; when the filename has no dot,
`substring(-1)` yields the whole lowercased name as in JavaScript. -/
def isImageFile (filename : List Char) : Bool :=
  let lower := filename.map Char.toLower
  let ext := match lastDotIdx filename with
    | some i => lower.drop i
    | none => lower
  imageExtensions.contains ext

/-- `parseFileBlock` from `git-diff.ts`. -/
def parseFileBlock (lines : List (List Char)) : Option DiffFile :=
  match lines with
  | [] => none
  | firstLine :: _ =>
    match matchFilePair firstLine with
    | none => none
    | some (oldFilename, newFilename) =>
      let hasNewFile := hasMarkerLine ("new file mode".toList) lines
      let hasDeletedFile := hasMarkerLine ("deleted file mode".toList) lines
      let hasRenameFrom := hasMarkerLine ("rename from".toList) lines
      let status : FileStatus :=
        if hasNewFile then FileStatus.added
        else if hasDeletedFile then FileStatus.deleted
        else if hasRenameFrom then FileStatus.renamed
        else FileStatus.modified
      let filename := if !hasNewFile && hasDeletedFile then oldFilename else newFilename
      if hasBinaryLine lines then
        some { filename := filename,
               oldFilename := if status = FileStatus.renamed then some oldFilename else none,
               status := status, additions := 0, deletions := 0, chunks := [],
               isBinary := some true, isImage := some (isImageFile filename) }
      else
        let chunks := parseChunks lines
        let allLines := (chunks.map DiffChunk.lines).flatten
        some { filename := filename,
               oldFilename := if status = FileStatus.renamed then some oldFilename else none,
               status := status,
               additions := (allLines.filter (fun l => l.type == LineType.added)).length,
               deletions := (allLines.filter (fun l => l.type == LineType.deleted)).length,
               chunks := chunks,
               isBinary := none, isImage := none }

/-- `parseDiffOutput` from `git-diff.ts`: split into file blocks, drop
blocks that are empty after trimming, parse each block and keep the
successful ones. -/
def parseDiffOutput (diffText : List Char) : List DiffFile :=
  ((splitBlocks diffText).filter (fun b => b.any (fun c => !(isWhite c)))).filterMap
    (fun b => parseFileBlock (splitLines b))

/-- The decimal digit character for `d < 10`. -/
def digitChar (d : Nat) : Char := Char.ofNat (48 + d)

/-- Fuel-driven decimal printing helper (structural recursion on the fuel). -/
def natToCharsAux : Nat → Nat → List Char
  | 0, _ => []
  | fuel + 1, n =>
    if n < 10 then [digitChar n]
    else natToCharsAux fuel (n / 10) ++ [digitChar (n % 10)]

/-- Decimal representation of a natural number, as produced by JavaScript
string interpolation of `lines.length`. -/
def natToChars (n : Nat) : List Char := natToCharsAux (n + 1) n

/-- The synthetic block emitted by `createSyntheticDiffForAllFiles` for one
readable file (with the fixed `'f'.repeat(7)` dummy hash). -/
def syntheticBlock (filename content : List Char) : List Char :=
  let lines := splitLines content
  ("diff --git a/".toList) ++ filename ++ (" b/".toList) ++ filename ++ ['\n'] ++
  ("new file mode 100644".toList) ++ ['\n'] ++
  ("index 0000000..fffffff".toList) ++ ['\n'] ++
  ("--- /dev/null".toList) ++ ['\n'] ++
  ("+++ b/".toList) ++ filename ++ ['\n'] ++
  ("@@ -0,0 +1,".toList) ++ natToChars lines.length ++ (" @@".toList) ++ ['\n'] ++
  (lines.map (fun l => '+' :: (l ++ ['\n']))).flatten

/-- `createSyntheticDiffForAllFiles` from `git-diff.ts`.  The filesystem is
modelled by `read`: `some content` for a readable regular file and `none`
when reading fails or the path is not a regular file (both of which the
source skips). -/
def createSyntheticDiff (read : List Char → Option (List Char))
    (files : List (List Char)) : List Char :=
  files.foldl (fun acc f =>
    match read f with
    | some content => acc ++ syntheticBlock f content
    | none => acc) []

/-- `ValidationResult` from `src/cli/utils.ts`. -/
structure ValidationResult where
  valid : Bool
  error : Option (List Char)
deriving DecidableEq, Repr

/-- The special target tokens accepted by `validateDiffArguments`. -/
def specialArgs : List (List Char) :=
  ["working".toList, "staged".toList, ".".toList]

/-- `validateDiffArguments` from `src/cli/utils.ts`. -/
def validateDiffArguments (target : List Char) (compareWith : Option (List Char)) :
    ValidationResult :=
  if specialArgs.contains target then
    { valid := true, error := none }
  else if isBlank target then
    { valid := false, error := some ("Target commit cannot be empty".toList) }
  else
    match compareWith with
    | some c =>
      if isBlank c then
        { valid := false, error := some ("Compare-with commit cannot be empty".toList) }
      else { valid := true, error := none }
    | none => { valid := true, error := none }

/-- `shortHash` from `src/cli/utils.ts`. -/
def shortHash (hash : List Char) : List Char := hash.take 7

/-- `createCommitRangeString` from `src/cli/utils.ts`. -/
def createCommitRangeString (target base : List Char) : List Char :=
  if target = "working".toList then "Working Directory (unstaged changes)".toList
  else if target = "staged".toList then
    shortHash base ++ " vs Staging Area (staged changes)".toList
  else if target = ".".toList then
    shortHash base ++ " vs Working Directory (all uncommitted changes)".toList
  else shortHash base ++ "..".toList ++ shortHash target

/-- The git and filesystem collaborators of `GitDiffParser`, as oracles:
`revparse` resolves a commit-ish (and may fail), `statusFiles` is the file
list the `--no-index` branch obtains from `git.status()`, `readFile` is the
synthetic-diff filesystem read, and `rawDiff` runs `git diff ...`. -/
structure GitOracle where
  revparse : List Char → Except (List Char) (List Char)
  statusFiles : List (List Char)
  readFile : List Char → Option (List Char)
  rawDiff : List (List Char) → Except (List Char) (List Char)

/-- The target-dispatch part of `parseDiff` (lines 25-55 of `git-diff.ts`):
returns the resolved label and the diff argument list. -/
def parseDiffResolve (g : GitOracle) (target base : List Char) :
    Except (List Char) (List Char × List (List Char)) :=
  if target = "working".toList then
    Except.ok ("Working Directory (unstaged changes)".toList, [])
  else if target = "staged".toList then
    match g.revparse base with
    | Except.error e => Except.error e
    | Except.ok baseHash =>
      Except.ok (shortHash baseHash ++ " vs Staging Area (staged changes)".toList,
        ["--cached".toList, base])
  else if target = ".".toList then
    match g.revparse base with
    | Except.ok baseHash =>
      Except.ok (shortHash baseHash ++ " vs Working Directory (all uncommitted changes)".toList,
        [base])
    | Except.error _ =>
      Except.ok ("Working Directory (all files)".toList,
        ["--no-index".toList, "/dev/null".toList])
  else
    match g.revparse target with
    | Except.error e => Except.error e
    | Except.ok targetHash =>
      match g.revparse base with
      | Except.error e => Except.error e
      | Except.ok baseHash =>
        Except.ok (createCommitRangeString targetHash baseHash, [base, target])

/-- The raw-diff retrieval part of `parseDiff` (lines 62-79 of
`git-diff.ts`). -/
def parseDiffRaw (g : GitOracle) (diffArgs : List (List Char)) :
    Except (List Char) (List Char) :=
  if diffArgs.isEmpty then g.rawDiff ["diff".toList, "--unified=3".toList]
  else if diffArgs.contains ("--no-index".toList) then
    (if g.statusFiles.isEmpty then Except.ok []
     else Except.ok (createSyntheticDiff g.readFile g.statusFiles))
  else g.rawDiff (["diff".toList, "--unified=3".toList] ++ diffArgs)

/-- `parseDiff` from `git-diff.ts`: validation, target dispatch, raw diff
retrieval, parsing, and the surrounding try/catch that wraps any failure
into a single `Failed to parse diff: ...` message. -/
def parseDiffModel (g : GitOracle) (target base : List Char)
    (ignoreWhitespace : Bool) : Except (List Char) DiffResponse :=
  let result : Except (List Char) DiffResponse :=
    (let validation := validateDiffArguments target (some base)
     if validation.valid then
       match parseDiffResolve g target base with
       | Except.error e => Except.error e
       | Except.ok (resolvedCommit, diffArgs0) =>
         let diffArgs :=
           if ignoreWhitespace then diffArgs0 ++ ["--ignore-all-space".toList]
           else diffArgs0
         match parseDiffRaw g diffArgs with
         | Except.error e => Except.error e
         | Except.ok rawDiff =>
           let files := parseDiffOutput rawDiff
           Except.ok { files := files, commit := resolvedCommit, isEmpty := files.isEmpty }
     else Except.error (validation.error.getD []))
  match result with
  | Except.ok r => Except.ok r
  | Except.error e => Except.error ("Failed to parse diff: ".toList ++ e)

/-!  Property-level definitions used to state the claims. -/

/-- The lockstep numbering rule of `parseChunks`, as a decidable check:
starting from counters `o` and `n`, every line records the counter values
from before the increments, `oldLineNumber` is present exactly on non-added
lines, `newLineNumber` exactly on non-deleted lines, and the counters are
bumped for `type != added` / `type != deleted` respectively. -/
def lockstepB : Nat → Nat → List DiffLine → Bool
  | _, _, [] => true
  | o, n, l :: ls =>
    decide (l.oldLineNumber = (if l.type = LineType.added then none else some o)) &&
    decide (l.newLineNumber = (if l.type = LineType.deleted then none else some n)) &&
    lockstepB (if l.type = LineType.added then o else o + 1)
      (if l.type = LineType.deleted then n else n + 1) ls

/-- Number of parsed lines with type `context` or `deleted`. -/
def chunkOldCount (ls : List DiffLine) : Nat :=
  (ls.filter (fun l => l.type == LineType.context || l.type == LineType.deleted)).length

/-- Number of parsed lines with type `context` or `added`. -/
def chunkNewCount (ls : List DiffLine) : Nat :=
  (ls.filter (fun l => l.type == LineType.context || l.type == LineType.added)).length

/-- Whether a raw line is a hunk content line (starts with space, `+` or `-`). -/
def isContentLine : List Char → Bool
  | c :: _ => c == ' ' || c == '+' || c == '-'
  | [] => false

/-- Number of raw body lines that belong to the pre-image (start with space
or `-`). -/
def bodyOldCount (body : List (List Char)) : Nat :=
  (body.filter (fun l =>
    match l with
    | c :: _ => c == ' ' || c == '-'
    | [] => false)).length

/-- Number of raw body lines that belong to the post-image (start with space
or `+`). -/
def bodyNewCount (body : List (List Char)) : Nat :=
  (body.filter (fun l =>
    match l with
    | c :: _ => c == ' ' || c == '+'
    | [] => false)).length

/-- The line type assigned by `parseChunks` to a content line starting with
the given character. -/
def contentType (c : Char) : LineType :=
  if c == '+' then LineType.added
  else if c == '-' then LineType.deleted else LineType.context

/-- The `DiffLine` that `parseChunks` appends for a content line with head
`c`, tail `cs` and running counters `o` and `n`. -/
def mkContentLine (c : Char) (cs : List Char) (o n : Nat) : DiffLine :=
  { type := contentType c, content := cs,
    oldLineNumber := if contentType c = LineType.added then none else some o,
    newLineNumber := if contentType c = LineType.deleted then none else some n }

/-- The diff lines that `parseChunks` appends to an open chunk when it scans
a run of content lines, with running counters `o` and `n` (non-content
lines are skipped, mirroring the scan's ignore behaviour). -/
def buildLines : Nat → Nat → List (List Char) → List DiffLine
  | _, _, [] => []
  | o, n, [] :: rest => buildLines o n rest
  | o, n, (c :: cs) :: rest =>
    if c == ' ' || c == '+' || c == '-' then
      mkContentLine c cs o n ::
        buildLines (if contentType c = LineType.added then o else o + 1)
          (if contentType c = LineType.deleted then n else n + 1) rest
    else buildLines o n rest

/-- Invariant carried by the `parseChunks` scan: every finalized chunk and
the open chunk satisfy the lockstep rule, and the running counters sit at
the open chunk's next old/new line numbers. -/
def chunkInvB (st : ChunkState) : Bool :=
  st.chunks.all (fun ch => lockstepB ch.oldStart ch.newStart ch.lines) &&
  (match st.cur with
   | none => true
   | some c =>
     lockstepB c.oldStart c.newStart c.lines &&
     (st.oldLN == c.oldStart + chunkOldCount c.lines) &&
     (st.newLN == c.newStart + chunkNewCount c.lines))

/-- Join lines with a terminating newline after each one. -/
def joinLines (ls : List (List Char)) : List Char :=
  (ls.map (fun l => l ++ ['\n'])).flatten

/-- The `a/<f> b/<f>` file-pair line of a synthetic block. -/
def syntheticFirstLine (f : List Char) : List Char :=
  ("a/".toList) ++ f ++ (" b/".toList) ++ f

/-- The lines of a synthetic block after the file-pair line. -/
def syntheticTailLines (f content : List Char) : List (List Char) :=
  [("new file mode 100644".toList), ("index 0000000..fffffff".toList),
   ("--- /dev/null".toList), ("+++ b/".toList) ++ f,
   ("@@ -0,0 +1,".toList) ++ natToChars (splitLines content).length ++ (" @@".toList)] ++
  (splitLines content).map (fun l => '+' :: l)

/-- The piece of a synthetic block that remains once the leading
`diff --git ` separator has been split off. -/
def syntheticBody (f content : List Char) : List Char :=
  syntheticFirstLine f ++ ['\n'] ++ joinLines (syntheticTailLines f content)

/-- A concrete oracle whose reference resolution always fails. -/
def failingOracle : GitOracle :=
  { revparse := fun _ => Except.error ("fatal: bad revision".toList),
    statusFiles := [],
    readFile := fun _ => none,
    rawDiff := fun _ => Except.error ("fatal: diff failed".toList) }

/-- A concrete oracle that resolves only the reference `abc`. -/
def mixedOracle : GitOracle :=
  { revparse := fun r =>
      if r = "abc".toList then Except.ok ("123abcdef0".toList)
      else Except.error ("fatal: bad revision".toList),
    statusFiles := [],
    readFile := fun _ => none,
    rawDiff := fun _ => Except.ok [] }

/-- A concrete filesystem with two readable files and everything else
unreadable. -/
def sampleRead : List Char → Option (List Char) :=
  fun f =>
    if f = "a.txt".toList then some ("hello\nworld".toList)
    else if f = "b.txt".toList then some ("x".toList)
    else none

/-- A concrete filesystem where a readable path contains a newline. -/
def newlineRead : List Char → Option (List Char) :=
  fun f =>
    if f = "a.txt".toList then some ("x".toList)
    else if f = "x\ny".toList then some ("z".toList)
    else none

/-!  Theorems. -/

/-- C7: a hunk header that omits a count field on either side defaults that
side's count to 1: `@@ -5 +7 @@` parses to `oldStart = 5`, `oldLines = 1`,
`newStart = 7`, `newLines = 1`, and feeding just that header line to
`parseChunks` produces exactly that chunk. -/
theorem c7_header_count_defaults :
    parseHunkHeader ("@@ -5 +7 @@".toList) = some (5, 1, 7, 1) ∧
    parseChunks [("@@ -5 +7 @@".toList)] =
      [{ oldStart := 5, oldLines := 1, newStart := 7, newLines := 1, lines := [] }] := by
  decide

/-- C3: a file block containing a `Binary files` marker parses to a
`DiffFile` with no chunks, zero additions and deletions and
`isBinary = some true`, whatever else the block contains; and conversely
any parsed `DiffFile` with `isBinary = some true` has no chunks and zero
counts. -/
theorem c3_binary_block (lines : List (List Char)) (f : DiffFile)
    (hp : parseFileBlock lines = some f) :
    (hasBinaryLine lines = true →
      f.chunks = [] ∧ f.additions = 0 ∧ f.deletions = 0 ∧ f.isBinary = some true) ∧
    (f.isBinary = some true →
      f.chunks = [] ∧ f.additions = 0 ∧ f.deletions = 0) := by
  cases lines with
  | nil => simp [parseFileBlock] at hp
  | cons h rest =>
    rw [parseFileBlock] at hp
    cases hm : matchFilePair h with
    | none => rw [hm] at hp; cases hp
    | some p =>
      obtain ⟨oldN, newN⟩ := p
      rw [hm] at hp
      by_cases hb : hasBinaryLine (h :: rest) = true
      · simp only [hb, if_true] at hp
        obtain rfl := Option.some.inj hp
        simp
      · simp only [Bool.not_eq_true] at hb
        simp only [hb, Bool.false_eq_true, if_false] at hp
        obtain rfl := Option.some.inj hp
        simp [hb]

/-- C3 witness: a concrete binary block. -/
theorem c3_binary_block_witness :
    (parseFileBlock (splitLines
        ("a/x.png b/x.png\nBinary files a/x.png and b/x.png differ".toList))).elim
      False (fun f =>
        f.chunks = [] ∧ f.additions = 0 ∧ f.deletions = 0 ∧ f.isBinary = some true) := by
  have hp : parseFileBlock (splitLines
      ("a/x.png b/x.png\nBinary files a/x.png and b/x.png differ".toList)) =
      some ⟨"x.png".toList, none, FileStatus.modified, 0, 0, [], some true, some true⟩ := by
    decide
  rw [hp]
  exact ((c3_binary_block _ _ hp).1 (by decide))

/-- C10: a non-binary block leaves both optional flags absent, a binary
block sets `isBinary = some true` together with a defined `isImage`, and a
defined `isImage` occurs exactly when `isBinary = some true`. -/
theorem c10_optional_flags (lines : List (List Char)) (f : DiffFile)
    (hp : parseFileBlock lines = some f) :
    (hasBinaryLine lines = false → f.isBinary = none ∧ f.isImage = none) ∧
    (hasBinaryLine lines = true → f.isBinary = some true ∧ f.isImage.isSome = true) ∧
    (f.isImage.isSome = true ↔ f.isBinary = some true) := by
  cases lines with
  | nil => simp [parseFileBlock] at hp
  | cons h rest =>
    rw [parseFileBlock] at hp
    cases hm : matchFilePair h with
    | none => rw [hm] at hp; cases hp
    | some p =>
      obtain ⟨oldN, newN⟩ := p
      rw [hm] at hp
      by_cases hb : hasBinaryLine (h :: rest) = true
      · simp only [hb, if_true] at hp
        obtain rfl := Option.some.inj hp
        simp [hb]
      · simp only [Bool.not_eq_true] at hb
        simp only [hb, Bool.false_eq_true, if_false] at hp
        obtain rfl := Option.some.inj hp
        simp [hb]

/-- C10 witness: a concrete non-binary block has both flags absent. -/
theorem c10_optional_flags_witness :
    (parseFileBlock (splitLines ("a/x b/x\n@@ -1 +1 @@\n x".toList))).elim
      False (fun f => f.isBinary = none ∧ f.isImage = none) := by
  have hp : parseFileBlock (splitLines ("a/x b/x\n@@ -1 +1 @@\n x".toList)) =
      some ⟨"x".toList, none, FileStatus.modified, 0, 0,
        [⟨1, 1, 1, 1, [⟨LineType.context, "x".toList, some 1, some 1⟩]⟩], none, none⟩ := by
    decide
  rw [hp]
  exact ((c10_optional_flags _ _ hp).1 (by decide))

/-- C4: status classification follows the marker precedence of
`parseFileBlock`: `new file mode` wins and gives `added`; otherwise
`deleted file mode` gives `deleted` with the pre-image path as filename;
otherwise `rename from` gives `renamed`; otherwise the status defaults to
`modified`. -/
theorem c4_status_precedence (h : List Char) (rest : List (List Char))
    (oldN newN : List Char) (f : DiffFile)
    (hm : matchFilePair h = some (oldN, newN))
    (hp : parseFileBlock (h :: rest) = some f) :
    (hasMarkerLine ("new file mode".toList) (h :: rest) = true →
      f.status = FileStatus.added) ∧
    (hasMarkerLine ("new file mode".toList) (h :: rest) = false →
      hasMarkerLine ("deleted file mode".toList) (h :: rest) = true →
      f.status = FileStatus.deleted ∧ f.filename = oldN) ∧
    (hasMarkerLine ("new file mode".toList) (h :: rest) = false →
      hasMarkerLine ("deleted file mode".toList) (h :: rest) = false →
      hasMarkerLine ("rename from".toList) (h :: rest) = true →
      f.status = FileStatus.renamed) ∧
    (hasMarkerLine ("new file mode".toList) (h :: rest) = false →
      hasMarkerLine ("deleted file mode".toList) (h :: rest) = false →
      hasMarkerLine ("rename from".toList) (h :: rest) = false →
      f.status = FileStatus.modified) := by
  rw [parseFileBlock] at hp
  rw [hm] at hp
  by_cases hb : hasBinaryLine (h :: rest) = true
  · simp only [hb, if_true] at hp
    obtain rfl := Option.some.inj hp
    refine ⟨?_, ?_, ?_, ?_⟩
    · intro h1; simp only [h1]; simp
    · intro h1 h2; simp only [h1, h2]; simp
    · intro h1 h2 h3; simp only [h1, h2, h3]; simp
    · intro h1 h2 h3; simp only [h1, h2, h3]; simp
  · simp only [Bool.not_eq_true] at hb
    simp only [hb, Bool.false_eq_true, if_false] at hp
    obtain rfl := Option.some.inj hp
    refine ⟨?_, ?_, ?_, ?_⟩
    · intro h1; simp only [h1]; simp
    · intro h1 h2; simp only [h1, h2]; simp
    · intro h1 h2 h3; simp only [h1, h2, h3]; simp
    · intro h1 h2 h3; simp only [h1, h2, h3]; simp

/-- C4 witness: a concrete deleted-file block gets status `deleted` and the
pre-image path. -/
theorem c4_status_precedence_witness :
    (parseFileBlock (splitLines
        ("a/old.txt b/old.txt\ndeleted file mode 100644\n--- a/old.txt\n+++ /dev/null".toList))).elim
      False (fun f => f.status = FileStatus.deleted ∧ f.filename = "old.txt".toList) := by
  have hp : parseFileBlock (("a/old.txt b/old.txt".toList) ::
      splitLines ("deleted file mode 100644\n--- a/old.txt\n+++ /dev/null".toList)) =
      some ⟨"old.txt".toList, none, FileStatus.deleted, 0, 0, [], none, none⟩ := by
    decide
  have hs : splitLines
      ("a/old.txt b/old.txt\ndeleted file mode 100644\n--- a/old.txt\n+++ /dev/null".toList) =
      ("a/old.txt b/old.txt".toList) ::
        splitLines ("deleted file mode 100644\n--- a/old.txt\n+++ /dev/null".toList) := by
    decide
  rw [hs, hp]
  exact ((c4_status_precedence ("a/old.txt b/old.txt".toList)
    (splitLines ("deleted file mode 100644\n--- a/old.txt\n+++ /dev/null".toList))
    ("old.txt".toList) ("old.txt".toList) _ (by decide) hp).2.1 (by decide) (by decide))

/-- C9: the embedded parser is a total function (every definition above is a
plain total Lean function), and it is permissive exactly as the source:
empty input and input with no recognizable block give `[]`, a block whose
first line fails the `a/<old> b/<new>` pattern is skipped, a `@@` line that
fails the header regex leaves the scan state unchanged, and a content line
outside any open chunk leaves the scan state unchanged. -/
theorem c9_total_and_permissive :
    parseDiffOutput [] = [] ∧
    parseDiffOutput ("random text\nwith no marker\n+stray\n@@ -1 +1 @@\n x".toList) = [] ∧
    (∀ (h : List Char) (rest : List (List Char)),
      matchFilePair h = none → parseFileBlock (h :: rest) = none) ∧
    (∀ (st : ChunkState) (l : List Char),
      (['@', '@'] : List Char).isPrefixOf l = true → parseHunkHeader l = none →
      chunkStep st l = st) ∧
    (∀ (st : ChunkState) (l : List Char),
      st.cur = none → (['@', '@'] : List Char).isPrefixOf l = false →
      chunkStep st l = st) := by
  refine ⟨by decide, by decide, ?_, ?_, ?_⟩
  · intro h rest hm
    simp only [parseFileBlock, hm]
  · intro st l hpre hhdr
    simp only [chunkStep, hpre, if_true, hhdr]
  · intro st l hcur hpre
    cases l with
    | nil => simp only [chunkStep, hpre, Bool.false_eq_true, if_false, hcur]
    | cons c cs => simp only [chunkStep, hpre, Bool.false_eq_true, if_false, hcur]

/-- C9 witness: concrete skipped block, ignored bad header, ignored stray
content line. -/
theorem c9_total_and_permissive_witness :
    parseFileBlock [("nonsense".toList)] = none ∧
    chunkStep initChunkState ("@@ bad".toList) = initChunkState ∧
    chunkStep initChunkState (" stray line".toList) = initChunkState :=
  ⟨c9_total_and_permissive.2.2.1 _ [] (by decide),
   c9_total_and_permissive.2.2.2.1 _ _ (by decide) (by decide),
   c9_total_and_permissive.2.2.2.2 _ _ (by decide) (by decide)⟩

/-- A blank string is never one of the special target tokens. -/
theorem blank_not_special (t : List Char) (h : isBlank t = true) :
    specialArgs.contains t = false := by
  have h1 : t ≠ "working".toList := by rintro rfl; revert h; decide
  have h2 : t ≠ "staged".toList := by rintro rfl; revert h; decide
  have h3 : t ≠ ".".toList := by rintro rfl; revert h; decide
  simp [specialArgs]
  exact ⟨h1, h2, h3⟩

/-- A special target token passes validation whatever the compare-with
argument is. -/
theorem validate_special (t : List Char) (cw : Option (List Char))
    (h : specialArgs.contains t = true) :
    validateDiffArguments t cw = { valid := true, error := none } := by
  rw [validateDiffArguments.eq_def, if_pos h]

/-- C5 counterexample: the claim demands that an empty or whitespace-only
side always fails before any I/O, but a special target token short-circuits
validation: with target `staged` and empty base validation succeeds, and
with target `.` and empty base the whole call even returns a successful
response (resolution of the empty base is attempted and its failure is
swallowed by the fallback). -/
theorem c5_counterexample :
    validateDiffArguments ("staged".toList) (some []) = { valid := true, error := none } ∧
    parseDiffModel failingOracle (".".toList) [] false =
      Except.ok ⟨[], "Working Directory (all files)".toList, true⟩ := by
  constructor
  · decide
  · rfl

/-- C5 (amended): for a target that is not a special token, a blank target
or blank base makes `parseDiff` fail with the invalid-argument message
naming that side, independently of the git oracle (so before any I/O);
a special target token always passes validation. -/
theorem c5_amended_invalid_arguments :
    (∀ (g : GitOracle) (target base : List Char) (iw : Bool),
      isBlank target = true →
      parseDiffModel g target base iw =
        Except.error ("Failed to parse diff: Target commit cannot be empty".toList)) ∧
    (∀ (g : GitOracle) (target base : List Char) (iw : Bool),
      specialArgs.contains target = false → isBlank target = false → isBlank base = true →
      parseDiffModel g target base iw =
        Except.error ("Failed to parse diff: Compare-with commit cannot be empty".toList)) ∧
    (∀ (target : List Char) (compareWith : Option (List Char)),
      specialArgs.contains target = true →
      validateDiffArguments target compareWith = { valid := true, error := none }) := by
  refine ⟨?_, ?_, ?_⟩
  · intro g target base iw hblank
    have hc : specialArgs.contains target = false := blank_not_special target hblank
    simp only [parseDiffModel, validateDiffArguments, hc, hblank]
    simp
  · intro g target base iw hns hblankT hblankB
    simp only [parseDiffModel, validateDiffArguments, hns, hblankT, hblankB]
    simp
  · intro t cw h
    exact validate_special t cw h

/-- C5 amended-claim witness: concrete blank target, concrete blank base,
and a special token passing validation. -/
theorem c5_amended_invalid_arguments_witness :
    parseDiffModel failingOracle ("   ".toList) ("x".toList) false =
      Except.error ("Failed to parse diff: Target commit cannot be empty".toList) ∧
    parseDiffModel failingOracle ("feature".toList) [] true =
      Except.error ("Failed to parse diff: Compare-with commit cannot be empty".toList) ∧
    validateDiffArguments ("working".toList) (some []) = { valid := true, error := none } :=
  ⟨c5_amended_invalid_arguments.1 failingOracle _ _ false (by decide),
   c5_amended_invalid_arguments.2.1 failingOracle _ _ true (by decide) (by decide) (by decide),
   c5_amended_invalid_arguments.2.2 _ _ (by decide)⟩

/-- A target that is no special token differs from each token. -/
theorem not_special_ne (t : List Char) (h : specialArgs.contains t = false) :
    t ≠ "working".toList ∧ t ≠ "staged".toList ∧ t ≠ ".".toList := by
  refine ⟨?_, ?_, ?_⟩ <;> rintro rfl <;> revert h <;> decide

/-- Resolution dispatch for target `.` when the base fails to resolve: the
failure is swallowed and the synthetic `--no-index` mode is selected. -/
theorem resolve_dot_fallback (g : GitOracle) (base e : List Char)
    (he : g.revparse base = Except.error e) :
    parseDiffResolve g (".".toList) base =
      Except.ok ("Working Directory (all files)".toList,
        ["--no-index".toList, "/dev/null".toList]) := by
  rw [parseDiffResolve.eq_def, if_neg (by decide), if_neg (by decide), if_pos rfl, he]

/-- Resolution dispatch for target `staged` when the base fails to resolve:
the failure propagates. -/
theorem resolve_staged_error (g : GitOracle) (base e : List Char)
    (he : g.revparse base = Except.error e) :
    parseDiffResolve g ("staged".toList) base = Except.error e := by
  rw [parseDiffResolve.eq_def, if_neg (by decide), if_pos rfl, he]

/-- Resolution dispatch for a generic target that fails to resolve. -/
theorem resolve_generic_target_error (g : GitOracle) (target base e : List Char)
    (hns : specialArgs.contains target = false)
    (he : g.revparse target = Except.error e) :
    parseDiffResolve g target base = Except.error e := by
  obtain ⟨h1, h2, h3⟩ := not_special_ne target hns
  rw [parseDiffResolve.eq_def, if_neg h1, if_neg h2, if_neg h3, he]

/-- Resolution dispatch for a generic target whose base fails to resolve. -/
theorem resolve_generic_base_error (g : GitOracle) (target base e th : List Char)
    (hns : specialArgs.contains target = false)
    (ht : g.revparse target = Except.ok th)
    (he : g.revparse base = Except.error e) :
    parseDiffResolve g target base = Except.error e := by
  obtain ⟨h1, h2, h3⟩ := not_special_ne target hns
  rw [parseDiffResolve.eq_def, if_neg h1, if_neg h2, if_neg h3, ht, he]

/-- `parseDiff` wraps a resolution failure into the single failure message. -/
theorem parseDiffModel_resolve_error (g : GitOracle) (target base e : List Char)
    (iw : Bool) (hv : (validateDiffArguments target (some base)).valid = true)
    (hr : parseDiffResolve g target base = Except.error e) :
    parseDiffModel g target base iw =
      Except.error ("Failed to parse diff: ".toList ++ e) := by
  simp only [parseDiffModel, hv, if_true, hr]

/-- `parseDiff` assembles the response when every stage succeeds. -/
theorem parseDiffModel_ok_shape (g : GitOracle) (target base : List Char) (iw : Bool)
    (resolved : List Char) (args : List (List Char)) (raw : List Char)
    (hv : (validateDiffArguments target (some base)).valid = true)
    (hr : parseDiffResolve g target base = Except.ok (resolved, args))
    (hw : parseDiffRaw g
      (if iw then args ++ [("--ignore-all-space".toList)] else args) = Except.ok raw) :
    parseDiffModel g target base iw =
      Except.ok ⟨parseDiffOutput raw, resolved, (parseDiffOutput raw).isEmpty⟩ := by
  simp only [parseDiffModel, hv, if_true, hr, hw]

/-- The `--no-index` branch of raw-diff retrieval never consults `git diff`:
it builds the synthetic text from the status list (empty text for an empty
list). -/
theorem parseDiffRaw_noindex (g : GitOracle) (args : List (List Char))
    (h1 : args.isEmpty = false) (h2 : args.contains ("--no-index".toList) = true) :
    parseDiffRaw g args =
      Except.ok (if g.statusFiles.isEmpty then []
        else createSyntheticDiff g.readFile g.statusFiles) := by
  rw [parseDiffRaw.eq_def]
  simp only [h1, Bool.false_eq_true, if_false, h2, if_true]
  split <;> rfl

/-- C6: with target `.`, a base that fails to resolve does not fail the
call: the result is a successful response labelled
`Working Directory (all files)`; with target `staged` or any non-special
target, a reference-resolution failure (of the target, or of the base once
the target resolved) surfaces as the wrapped failure message.  (Target
`working` performs no resolution at all.) -/
theorem c6_dot_fallback_vs_propagation :
    (∀ (g : GitOracle) (base : List Char) (iw : Bool) (e : List Char),
      g.revparse base = Except.error e →
      ∃ r, parseDiffModel g (".".toList) base iw = Except.ok r ∧
        r.commit = "Working Directory (all files)".toList) ∧
    (∀ (g : GitOracle) (base : List Char) (iw : Bool) (e : List Char),
      g.revparse base = Except.error e →
      parseDiffModel g ("staged".toList) base iw =
        Except.error ("Failed to parse diff: ".toList ++ e)) ∧
    (∀ (g : GitOracle) (target base : List Char) (iw : Bool) (e : List Char),
      specialArgs.contains target = false →
      (validateDiffArguments target (some base)).valid = true →
      g.revparse target = Except.error e →
      parseDiffModel g target base iw =
        Except.error ("Failed to parse diff: ".toList ++ e)) ∧
    (∀ (g : GitOracle) (target base : List Char) (iw : Bool) (e th : List Char),
      specialArgs.contains target = false →
      (validateDiffArguments target (some base)).valid = true →
      g.revparse target = Except.ok th → g.revparse base = Except.error e →
      parseDiffModel g target base iw =
        Except.error ("Failed to parse diff: ".toList ++ e)) := by
  refine ⟨?_, ?_, ?_, ?_⟩
  · intro g base iw e he
    have hv : (validateDiffArguments (".".toList) (some base)).valid = true := by
      rw [validate_special _ _ (by decide)]
    have hw := parseDiffRaw_noindex g
      (if iw then ["--no-index".toList, "/dev/null".toList] ++
        [("--ignore-all-space".toList)] else ["--no-index".toList, "/dev/null".toList])
      (by cases iw <;> decide) (by cases iw <;> decide)
    exact ⟨_, parseDiffModel_ok_shape g _ base iw _ _ _ hv (resolve_dot_fallback g base e he) hw,
      rfl⟩
  · intro g base iw e he
    exact parseDiffModel_resolve_error g _ base e iw
      (by rw [validate_special _ _ (by decide)]) (resolve_staged_error g base e he)
  · intro g target base iw e hns hv he
    exact parseDiffModel_resolve_error g target base e iw hv
      (resolve_generic_target_error g target base e hns he)
  · intro g target base iw e th hns hv ht he
    exact parseDiffModel_resolve_error g target base e iw hv
      (resolve_generic_base_error g target base e th hns ht he)

/-- C6 witness: concrete oracles exercising the fallback and each
propagation shape. -/
theorem c6_dot_fallback_vs_propagation_witness :
    (∃ r, parseDiffModel failingOracle (".".toList) ("HEAD".toList) false = Except.ok r ∧
      r.commit = "Working Directory (all files)".toList) ∧
    parseDiffModel failingOracle ("staged".toList) ("HEAD".toList) false =
      Except.error ("Failed to parse diff: ".toList ++ ("fatal: bad revision".toList)) ∧
    parseDiffModel failingOracle ("feature".toList) ("main".toList) false =
      Except.error ("Failed to parse diff: ".toList ++ ("fatal: bad revision".toList)) ∧
    parseDiffModel mixedOracle ("abc".toList) ("main".toList) false =
      Except.error ("Failed to parse diff: ".toList ++ ("fatal: bad revision".toList)) :=
  ⟨c6_dot_fallback_vs_propagation.1 failingOracle _ false _ rfl,
   c6_dot_fallback_vs_propagation.2.1 failingOracle _ false _ rfl,
   c6_dot_fallback_vs_propagation.2.2.1 failingOracle _ _ false _ (by decide) (by decide) rfl,
   c6_dot_fallback_vs_propagation.2.2.2 mixedOracle ("abc".toList) ("main".toList) false
     ("fatal: bad revision".toList) ("123abcdef0".toList) (by decide) (by decide) rfl rfl⟩

/-- Count of non-added lines, one `cons` at a time. -/
theorem chunkOldCount_cons (x : DiffLine) (xs : List DiffLine) :
    chunkOldCount (x :: xs) = (if x.type = LineType.added then 0 else 1) + chunkOldCount xs := by
  cases hx : x.type <;> simp [chunkOldCount, List.filter_cons, hx] <;> omega

/-- Count of non-deleted lines, one `cons` at a time. -/
theorem chunkNewCount_cons (x : DiffLine) (xs : List DiffLine) :
    chunkNewCount (x :: xs) = (if x.type = LineType.deleted then 0 else 1) + chunkNewCount xs := by
  cases hx : x.type <;> simp [chunkNewCount, List.filter_cons, hx] <;> omega

/-- Counting non-added lines distributes over append. -/
theorem chunkOldCount_append (xs ys : List DiffLine) :
    chunkOldCount (xs ++ ys) = chunkOldCount xs + chunkOldCount ys := by
  simp [chunkOldCount, List.filter_append]

/-- Counting non-deleted lines distributes over append. -/
theorem chunkNewCount_append (xs ys : List DiffLine) :
    chunkNewCount (xs ++ ys) = chunkNewCount xs + chunkNewCount ys := by
  simp [chunkNewCount, List.filter_append]

/-- Shifting the old counter across one line. -/
theorem counterOld_shift (x : DiffLine) (xs : List DiffLine) (o : Nat) :
    (if x.type = LineType.added then o else o + 1) + chunkOldCount xs =
      o + chunkOldCount (x :: xs) := by
  by_cases hx : x.type = LineType.added <;> simp [hx, chunkOldCount_cons] <;> omega

/-- Shifting the new counter across one line. -/
theorem counterNew_shift (x : DiffLine) (xs : List DiffLine) (n : Nat) :
    (if x.type = LineType.deleted then n else n + 1) + chunkNewCount xs =
      n + chunkNewCount (x :: xs) := by
  by_cases hx : x.type = LineType.deleted <;> simp [hx, chunkNewCount_cons] <;> omega

/-- Appending one line to a lockstep-numbered list keeps it lockstep when
the new line records the current counter values. -/
theorem lockstepB_snoc (l : DiffLine) :
    ∀ (ls : List DiffLine) (o n : Nat), lockstepB o n ls = true →
    l.oldLineNumber = (if l.type = LineType.added then none
      else some (o + chunkOldCount ls)) →
    l.newLineNumber = (if l.type = LineType.deleted then none
      else some (n + chunkNewCount ls)) →
    lockstepB o n (ls ++ [l]) = true := by
  intro ls
  induction ls with
  | nil =>
    intro o n _ h1 h2
    simp only [List.nil_append, lockstepB, Bool.and_eq_true, decide_eq_true_eq]
    refine ⟨⟨?_, ?_⟩, trivial⟩
    · rw [h1]; simp [chunkOldCount]
    · rw [h2]; simp [chunkNewCount]
  | cons x xs ih =>
    intro o n h h1 h2
    rw [List.cons_append]
    simp only [lockstepB, Bool.and_eq_true, decide_eq_true_eq] at h ⊢
    refine ⟨h.1, ?_⟩
    refine ih _ _ h.2 ?_ ?_
    · rw [h1, counterOld_shift]
    · rw [h2, counterNew_shift]

/-- The scan invariant is preserved by one step. -/
theorem chunkInvB_step (st : ChunkState) (line : List Char)
    (h : chunkInvB st = true) : chunkInvB (chunkStep st line) = true := by
  rw [chunkStep.eq_def]
  by_cases hpre : (['@', '@'] : List Char).isPrefixOf line = true
  · rw [if_pos hpre]
    cases hh : parseHunkHeader line with
    | none => exact h
    | some q =>
      obtain ⟨os, ol, ns, nl⟩ := q
      simp only [chunkInvB, Bool.and_eq_true] at h
      cases hcur : st.cur with
      | none =>
        simp [chunkInvB, h.1, lockstepB, chunkOldCount, chunkNewCount]
      | some c =>
        rw [hcur] at h
        have h2 : (lockstepB c.oldStart c.newStart c.lines &&
            (st.oldLN == c.oldStart + chunkOldCount c.lines) &&
            (st.newLN == c.newStart + chunkNewCount c.lines)) = true := h.2
        simp only [Bool.and_eq_true] at h2
        simp [chunkInvB, List.all_append, h.1, h2.1.1, lockstepB,
          chunkOldCount, chunkNewCount]
  · rw [if_neg hpre]
    split
    · rename_i c ch cs hcur
      by_cases hcontent : (ch == ' ' || ch == '+' || ch == '-') = true
      · simp only [chunkInvB, Bool.and_eq_true] at h
        rw [hcur] at h
        have h2 : (lockstepB c.oldStart c.newStart c.lines &&
            (st.oldLN == c.oldStart + chunkOldCount c.lines) &&
            (st.newLN == c.newStart + chunkNewCount c.lines)) = true := h.2
        simp only [Bool.and_eq_true, beq_iff_eq] at h2
        obtain ⟨⟨hlock, hold⟩, hnew⟩ := h2
        simp only [hcontent, if_true]
        simp only [chunkInvB, Bool.and_eq_true, beq_iff_eq]
        refine ⟨h.1, ⟨⟨?_, ?_⟩, ?_⟩⟩
        · refine lockstepB_snoc _ _ _ _ hlock ?_ ?_
          · simp only [hold]
          · simp only [hnew]
        · rw [chunkOldCount_append, chunkOldCount_cons]
          by_cases ht : (if ch = '+' then LineType.added
              else if ch = '-' then LineType.deleted else LineType.context) =
              LineType.added <;>
            simp [chunkOldCount, ht, hold] <;> omega
        · rw [chunkNewCount_append, chunkNewCount_cons]
          by_cases ht : (if ch = '+' then LineType.added
              else if ch = '-' then LineType.deleted else LineType.context) =
              LineType.deleted <;>
            simp [chunkNewCount, ht, hnew] <;> omega
      · have hcontent' : (ch == ' ' || ch == '+' || ch == '-') = false := by
          rwa [Bool.not_eq_true] at hcontent
        simp only [hcontent', Bool.false_eq_true, if_false]
        exact h
    · exact h

/-- The scan invariant is preserved by the whole fold. -/
theorem chunkInvB_foldl (lines : List (List Char)) :
    ∀ (st : ChunkState), chunkInvB st = true →
    chunkInvB (lines.foldl chunkStep st) = true := by
  induction lines with
  | nil => intro st h; exact h
  | cons l ls ih => intro st h; exact ih _ (chunkInvB_step st l h)

/-- C1: every chunk produced by the hunk/line parser satisfies the lockstep
numbering rule: starting from the chunk header's `oldStart`/`newStart`,
each line records the counter values before incrementing, `oldLineNumber`
is present exactly on context and deleted lines, `newLineNumber` exactly on
context and added lines, and the counters are incremented for
`type != added` / `type != deleted` respectively. -/
theorem c1_lockstep_numbering (lines : List (List Char)) (ch : DiffChunk)
    (hmem : ch ∈ parseChunks lines) :
    lockstepB ch.oldStart ch.newStart ch.lines = true := by
  have hinv := chunkInvB_foldl lines initChunkState (by decide)
  simp only [parseChunks] at hmem
  rw [List.mem_append] at hmem
  simp only [chunkInvB, Bool.and_eq_true] at hinv
  cases hmem with
  | inl hin =>
    have hall := hinv.1
    rw [List.all_eq_true] at hall
    exact hall ch hin
  | inr hin =>
    cases hcur : (lines.foldl chunkStep initChunkState).cur with
    | none => rw [hcur] at hin; cases hin
    | some c =>
      rw [hcur] at hin
      have hc : ch = c := by simpa using hin
      subst hc
      rw [hcur] at hinv
      have h2 : (lockstepB ch.oldStart ch.newStart ch.lines &&
          ((lines.foldl chunkStep initChunkState).oldLN ==
            ch.oldStart + chunkOldCount ch.lines) &&
          ((lines.foldl chunkStep initChunkState).newLN ==
            ch.newStart + chunkNewCount ch.lines)) = true := hinv.2
      simp only [Bool.and_eq_true] at h2
      exact h2.1.1

/-- C1 witness: the lockstep rule evaluated on the chunk parsed from a
concrete hunk. -/
theorem c1_lockstep_numbering_witness :
    lockstepB 5 7 [⟨LineType.context, "x".toList, some 5, some 7⟩] = true :=
  c1_lockstep_numbering [("@@ -5 +7 @@".toList), (" x".toList)]
    ⟨5, 1, 7, 1, [⟨LineType.context, "x".toList, some 5, some 7⟩]⟩ (by decide)

/-- C2 counterexample: the parser copies the header counts verbatim without
validating them against the hunk body, so on a diff whose header declares
five lines but whose body is empty the claimed invariant fails. -/
theorem c2_counterexample :
    ¬ (∀ (text : List Char), ∀ f ∈ parseDiffOutput text, ∀ ch ∈ f.chunks,
        chunkOldCount ch.lines = ch.oldLines ∧
          chunkNewCount ch.lines = ch.newLines) := by
  intro hall
  have h := hall ("diff --git a/x b/x\n@@ -1,5 +1,5 @@\n".toList)
  revert h
  decide

/-- A content line can not be a hunk header line. -/
theorem content_not_header (ch : Char) (cs : List Char)
    (hch : (ch == ' ' || ch == '+' || ch == '-') = true) :
    (['@', '@'] : List Char).isPrefixOf (ch :: cs) = false := by
  have hne : ch ≠ '@' := by
    intro he
    subst he
    revert hch
    decide
  simp [List.isPrefixOf]
  intro he
  exact absurd he.symm hne

/-- What one scan step does to an open chunk on a content line. -/
theorem chunkStep_content (st : ChunkState) (c : DiffChunk) (ch : Char)
    (cs : List Char) (hcur : st.cur = some c)
    (hch : (ch == ' ' || ch == '+' || ch == '-') = true) :
    chunkStep st (ch :: cs) =
      { chunks := st.chunks,
        cur := some { c with lines := c.lines ++ [mkContentLine ch cs st.oldLN st.newLN] },
        oldLN := if contentType ch = LineType.added then st.oldLN else st.oldLN + 1,
        newLN := if contentType ch = LineType.deleted then st.newLN else st.newLN + 1 } := by
  have hpre := content_not_header ch cs hch
  rw [chunkStep.eq_def, if_neg (by simp [hpre]), hcur]
  simp [hch, mkContentLine, contentType]

/-- Unfolding `buildLines` on a content line. -/
theorem buildLines_cons_content (ch : Char) (cs : List Char)
    (ls : List (List Char)) (o n : Nat)
    (hch : (ch == ' ' || ch == '+' || ch == '-') = true) :
    buildLines o n ((ch :: cs) :: ls) =
      mkContentLine ch cs o n ::
        buildLines (if contentType ch = LineType.added then o else o + 1)
          (if contentType ch = LineType.deleted then n else n + 1) ls := by
  simp [buildLines, hch]

/-- The pre-image body count on a content line, phrased via `contentType`. -/
theorem bodyOldCount_cons_content (ch : Char) (cs : List Char)
    (ls : List (List Char))
    (hch : (ch == ' ' || ch == '+' || ch == '-') = true) :
    bodyOldCount ((ch :: cs) :: ls) =
      (if contentType ch = LineType.added then 0 else 1) + bodyOldCount ls := by
  by_cases h1 : (ch == '+') = true
  · have he : ch = '+' := by simpa using h1
    subst he
    simp [bodyOldCount, List.filter_cons, contentType]
  · by_cases h2 : (ch == '-') = true
    · have he : ch = '-' := by simpa using h2
      subst he
      simp [bodyOldCount, List.filter_cons, contentType]
      omega
    · have h3 : (ch == ' ') = true := by
        simp only [h1, h2, Bool.or_false] at hch
        exact hch
      have he : ch = ' ' := by simpa using h3
      subst he
      simp [bodyOldCount, List.filter_cons, contentType]
      omega

/-- The post-image body count on a content line, phrased via `contentType`. -/
theorem bodyNewCount_cons_content (ch : Char) (cs : List Char)
    (ls : List (List Char))
    (hch : (ch == ' ' || ch == '+' || ch == '-') = true) :
    bodyNewCount ((ch :: cs) :: ls) =
      (if contentType ch = LineType.deleted then 0 else 1) + bodyNewCount ls := by
  by_cases h1 : (ch == '+') = true
  · have he : ch = '+' := by simpa using h1
    subst he
    simp [bodyNewCount, List.filter_cons, contentType]
    omega
  · by_cases h2 : (ch == '-') = true
    · have he : ch = '-' := by simpa using h2
      subst he
      simp [bodyNewCount, List.filter_cons, contentType]
    · have h3 : (ch == ' ') = true := by
        simp only [h1, h2, Bool.or_false] at hch
        exact hch
      have he : ch = ' ' := by simpa using h3
      subst he
      simp [bodyNewCount, List.filter_cons, contentType]
      omega

/-- Folding the scan over a run of content lines extends the open chunk by
exactly the lockstep-numbered lines and advances the counters by the body
counts. -/
theorem foldl_content (body : List (List Char)) :
    ∀ (st : ChunkState) (c : DiffChunk), st.cur = some c →
    (∀ l ∈ body, isContentLine l = true) →
    body.foldl chunkStep st =
      { chunks := st.chunks,
        cur := some { c with lines := c.lines ++ buildLines st.oldLN st.newLN body },
        oldLN := st.oldLN + bodyOldCount body,
        newLN := st.newLN + bodyNewCount body } := by
  induction body with
  | nil =>
    intro st c hcur _
    obtain ⟨chs, cur, o, n⟩ := st
    simp only at hcur
    subst hcur
    obtain ⟨co, col, cn, cnl, cls⟩ := c
    simp [buildLines, bodyOldCount, bodyNewCount]
  | cons l ls ih =>
    intro st c hcur hall
    have hl := hall l (List.mem_cons_self _ _)
    cases l with
    | nil => simp [isContentLine] at hl
    | cons ch cs =>
      rw [List.foldl_cons, chunkStep_content st c ch cs hcur hl,
        ih _ _ rfl (fun x hx => hall x (List.mem_cons_of_mem _ hx)),
        buildLines_cons_content ch cs ls _ _ hl,
        bodyOldCount_cons_content ch cs ls hl,
        bodyNewCount_cons_content ch cs ls hl]
      simp only [ChunkState.mk.injEq]
      refine ⟨trivial, ?_, ?_, ?_⟩
      · simp
      · by_cases ht : contentType ch = LineType.added <;> simp [ht] <;> omega
      · by_cases ht : contentType ch = LineType.deleted <;> simp [ht] <;> omega

/-- The chunk-side old count of the built lines equals the body count. -/
theorem chunkOldCount_buildLines : ∀ (body : List (List Char)) (o n : Nat),
    chunkOldCount (buildLines o n body) = bodyOldCount body := by
  intro body
  induction body with
  | nil => intro o n; rfl
  | cons l ls ih =>
    intro o n
    cases l with
    | nil => simp [buildLines, bodyOldCount, List.filter_cons, ih o n]
    | cons ch cs =>
      by_cases hch : (ch == ' ' || ch == '+' || ch == '-') = true
      · rw [buildLines_cons_content ch cs ls o n hch, chunkOldCount_cons,
          bodyOldCount_cons_content ch cs ls hch, ih]
        simp [mkContentLine]
      · have hch' : (ch == ' ' || ch == '+' || ch == '-') = false := by
          rwa [Bool.not_eq_true] at hch
        have hw : ¬ ch = ' ' ∧ ¬ ch = '+' ∧ ¬ ch = '-' := by
          simpa [and_assoc] using hch'
        simp [buildLines, bodyOldCount, List.filter_cons, hw.1, hw.2.1, hw.2.2, ih o n]

/-- The chunk-side new count of the built lines equals the body count. -/
theorem chunkNewCount_buildLines : ∀ (body : List (List Char)) (o n : Nat),
    chunkNewCount (buildLines o n body) = bodyNewCount body := by
  intro body
  induction body with
  | nil => intro o n; rfl
  | cons l ls ih =>
    intro o n
    cases l with
    | nil => simp [buildLines, bodyNewCount, List.filter_cons, ih o n]
    | cons ch cs =>
      by_cases hch : (ch == ' ' || ch == '+' || ch == '-') = true
      · rw [buildLines_cons_content ch cs ls o n hch, chunkNewCount_cons,
          bodyNewCount_cons_content ch cs ls hch, ih]
        simp [mkContentLine]
      · have hch' : (ch == ' ' || ch == '+' || ch == '-') = false := by
          rwa [Bool.not_eq_true] at hch
        have hw : ¬ ch = ' ' ∧ ¬ ch = '+' ∧ ¬ ch = '-' := by
          simpa [and_assoc] using hch'
        simp [buildLines, bodyNewCount, List.filter_cons, hw.1, hw.2.1, hw.2.2, ih o n]

/-- C2 (amended): the round-trip line-count invariant holds for every chunk
parsed from a hunk whose body is consistent with its header: if the body's
content lines number exactly the declared counts, the parsed chunk's
context-or-deleted lines equal `oldLines` and its context-or-added lines
equal `newLines`.  (The parser itself copies the header counts verbatim
without validating them, so the invariant can fail on inconsistent input.) -/
theorem c2_count_invariant_wellformed (h : List Char) (os ol ns nl : Nat)
    (body : List (List Char))
    (hpre : (['@', '@'] : List Char).isPrefixOf h = true)
    (hh : parseHunkHeader h = some (os, ol, ns, nl))
    (hbody : ∀ l ∈ body, isContentLine l = true)
    (holdc : bodyOldCount body = ol) (hnewc : bodyNewCount body = nl) :
    ∀ ch ∈ parseChunks (h :: body),
      chunkOldCount ch.lines = ch.oldLines ∧ chunkNewCount ch.lines = ch.newLines := by
  intro ch hmem
  have hstep : chunkStep initChunkState h =
      ⟨[], some ⟨os, ol, ns, nl, []⟩, os, ns⟩ := by
    rw [chunkStep.eq_def, if_pos hpre, hh]
    rfl
  simp only [parseChunks, List.foldl_cons, hstep] at hmem
  rw [foldl_content body _ ⟨os, ol, ns, nl, []⟩ rfl hbody] at hmem
  simp only [List.nil_append] at hmem
  have hch : ch = ⟨os, ol, ns, nl, buildLines os ns body⟩ := by simpa using hmem
  subst hch
  constructor
  · rw [chunkOldCount_buildLines]
    exact holdc
  · rw [chunkNewCount_buildLines]
    exact hnewc

/-- C2 amended-claim witness: the single chunk parsed from a concrete
well-formed hunk satisfies the count invariant. -/
theorem c2_count_invariant_wellformed_witness :
    chunkOldCount [⟨LineType.context, "a".toList, some 3, some 7⟩,
      ⟨LineType.deleted, "b".toList, some 4, none⟩,
      ⟨LineType.added, "c".toList, none, some 8⟩] = 2 ∧
    chunkNewCount [⟨LineType.context, "a".toList, some 3, some 7⟩,
      ⟨LineType.deleted, "b".toList, some 4, none⟩,
      ⟨LineType.added, "c".toList, none, some 8⟩] = 2 :=
  c2_count_invariant_wellformed ("@@ -3,2 +7,2 @@".toList) 3 2 7 2
    [(" a".toList), ("-b".toList), ("+c".toList)]
    (by decide) (by decide) (by decide) (by decide) (by decide)
    ⟨3, 2, 7, 2, [⟨LineType.context, "a".toList, some 3, some 7⟩,
      ⟨LineType.deleted, "b".toList, some 4, none⟩,
      ⟨LineType.added, "c".toList, none, some 8⟩]⟩ (by decide)

/-- A list is a `isPrefixOf` any extension of itself. -/
theorem isPrefixOf_append_self : ∀ (l t : List Char), l.isPrefixOf (l ++ t) = true := by
  intro l t
  induction l with
  | nil => simp [List.isPrefixOf]
  | cons c cs ih => simp [List.isPrefixOf, ih]

/-- A nonempty pattern is no prefix of a list with a different head. -/
theorem isPrefixOf_false_head (p : Char) (ps l : List Char)
    (h : l.head? ≠ some p) : (p :: ps).isPrefixOf l = false := by
  cases l with
  | nil => rfl
  | cons c cs =>
    have hc : c ≠ p := by
      intro he
      exact h (by simp [he])
    simp [List.isPrefixOf]
    intro he
    exact absurd he.symm hc

/-- One splitter step in the middle of a line. -/
theorem splitBlocksAux_mid (c : Char) (rest acc : List Char) :
    splitBlocksAux (c :: rest) acc false 0 =
      splitBlocksAux rest (c :: acc) (c == '\n') 0 := rfl

/-- One splitter step at a line start that is not a separator. -/
theorem splitBlocksAux_nomatch (c : Char) (rest acc : List Char)
    (h : marker.isPrefixOf (c :: rest) = false) :
    splitBlocksAux (c :: rest) acc true 0 =
      splitBlocksAux rest (c :: acc) (c == '\n') 0 := by
  rw [splitBlocksAux]
  simp [h]

/-- Hitting the separator at a line start emits the accumulated piece. -/
theorem splitBlocksAux_marker (x acc : List Char) :
    splitBlocksAux (marker ++ x) acc true 0 =
      acc.reverse :: splitBlocksAux x [] false 0 := by
  show splitBlocksAux
    ('d' :: 'i' :: 'f' :: 'f' :: ' ' :: '-' :: '-' :: 'g' :: 'i' :: 't' :: ' ' :: x)
    acc true 0 = _
  rw [splitBlocksAux]
  norm_num [List.isPrefixOf, marker]
  rfl

/-- The splitter consumes a newline-free segment in the middle of a line. -/
theorem splitBlocksAux_seg : ∀ (seg : List Char), '\n' ∉ seg →
    ∀ (input acc : List Char),
    splitBlocksAux (seg ++ input) acc false 0 =
      splitBlocksAux input (seg.reverse ++ acc) false 0 := by
  intro seg
  induction seg with
  | nil => intro _ input acc; simp
  | cons c cs ih =>
    intro h input acc
    simp only [List.mem_cons, not_or] at h
    have hcne : c ≠ '\n' := fun hx => h.1 hx.symm
    have hc : (c == '\n') = false := by simp [hcne]
    rw [List.cons_append, splitBlocksAux_mid, hc, ih h.2]
    simp

/-- The splitter consumes one whole safe line (no newline inside, and not
starting like the separator) together with its terminating newline. -/
theorem splitBlocksAux_line (l : List Char) (h1 : '\n' ∉ l)
    (h2 : l.head? ≠ some 'd') (input acc : List Char) :
    splitBlocksAux (l ++ '\n' :: input) acc true 0 =
      splitBlocksAux input ('\n' :: (l.reverse ++ acc)) true 0 := by
  cases l with
  | nil =>
    rw [List.nil_append,
      splitBlocksAux_nomatch _ _ _ (isPrefixOf_false_head 'd' _ _ (by simp))]
    simp
  | cons c cs =>
    have hc : c ≠ '\n' := by
      simp only [List.mem_cons, not_or] at h1
      exact fun he => h1.1 he.symm
    have hcs : '\n' ∉ cs := by
      simp only [List.mem_cons, not_or] at h1
      exact h1.2
    rw [List.cons_append, splitBlocksAux_nomatch _ _ _ (by
        refine isPrefixOf_false_head 'd' _ _ ?_
        simpa using h2)]
    have hcb : (c == '\n') = false := by simp [hc]
    rw [hcb, splitBlocksAux_seg cs hcs, splitBlocksAux_mid]
    simp [List.append_assoc]

/-- The splitter consumes a run of safe newline-terminated lines. -/
theorem splitBlocksAux_lines : ∀ (ls : List (List Char)),
    (∀ l ∈ ls, '\n' ∉ l ∧ l.head? ≠ some 'd') →
    ∀ (input acc : List Char),
    splitBlocksAux (joinLines ls ++ input) acc true 0 =
      splitBlocksAux input ((joinLines ls).reverse ++ acc) true 0 := by
  intro ls
  induction ls with
  | nil => intro _ input acc; simp [joinLines]
  | cons l ls' ih =>
    intro h input acc
    have hl := h l (List.mem_cons_self _ _)
    have hjoin : joinLines (l :: ls') = l ++ '\n' :: joinLines ls' := by
      simp [joinLines]
    rw [hjoin, List.append_assoc]
    rw [show ('\n' :: joinLines ls') ++ input = '\n' :: (joinLines ls' ++ input) from rfl]
    rw [splitBlocksAux_line l hl.1 hl.2,
      ih (fun x hx => h x (List.mem_cons_of_mem _ hx))]
    simp [List.reverse_append, List.append_assoc]

/-- Lines produced by `splitLines` contain no newline. -/
theorem splitLines_no_nl : ∀ (s : List Char), ∀ l ∈ splitLines s, '\n' ∉ l := by
  intro s
  induction s with
  | nil =>
    intro l hl
    simp only [splitLines, List.mem_singleton] at hl
    simp [hl]
  | cons c rest ih =>
    intro l hl
    by_cases hc : c = '\n'
    · rw [splitLines, if_pos hc] at hl
      rcases List.mem_cons.mp hl with h | h
      · simp [h]
      · exact ih l h
    · rw [splitLines, if_neg hc] at hl
      cases hr : splitLines rest with
      | nil =>
        rw [hr] at hl
        have hx : l = [c] := by simpa using hl
        subst hx
        simp only [List.mem_singleton]
        exact fun hx => hc hx.symm
      | cons x xs =>
        rw [hr] at hl
        rcases List.mem_cons.mp hl with h | h
        · subst h
          intro hmem
          rcases List.mem_cons.mp hmem with h' | h'
          · exact hc h'.symm
          · exact ih x (hr ▸ List.mem_cons_self x xs) h'
        · exact ih l (hr ▸ List.mem_cons_of_mem x h)

/-- `splitLines` splits off a newline-free line before a newline. -/
theorem splitLines_append : ∀ (l : List Char), '\n' ∉ l → ∀ (rest : List Char),
    splitLines (l ++ '\n' :: rest) = l :: splitLines rest := by
  intro l
  induction l with
  | nil => intro _ rest; simp [splitLines]
  | cons c cs ih =>
    intro h rest
    simp only [List.mem_cons, not_or] at h
    have hc : c ≠ '\n' := fun hx => h.1 hx.symm
    rw [List.cons_append, splitLines, if_neg hc, ih h.2 rest]

/-- Splitting a join of newline-terminated, newline-free lines recovers the
lines plus the final empty line. -/
theorem splitLines_joinLines : ∀ (ls : List (List Char)),
    (∀ l ∈ ls, '\n' ∉ l) → splitLines (joinLines ls) = ls ++ [[]] := by
  intro ls
  induction ls with
  | nil => intro _; rfl
  | cons l ls' ih =>
    intro h
    have hjoin : joinLines (l :: ls') = l ++ '\n' :: joinLines ls' := by
      simp [joinLines]
    rw [hjoin, splitLines_append l (h l (List.mem_cons_self _ _)),
      ih (fun x hx => h x (List.mem_cons_of_mem _ hx))]
    rfl

/-- Every character printed by the decimal printer is a digit. -/
theorem natToCharsAux_digits : ∀ (fuel n : Nat), ∀ c ∈ natToCharsAux fuel n,
    c.isDigit = true := by
  intro fuel
  induction fuel with
  | zero => intro n c hc; simp [natToCharsAux] at hc
  | succ fuel ih =>
    intro n c hc
    rw [natToCharsAux] at hc
    by_cases hn : n < 10
    · rw [if_pos hn] at hc
      have : c = digitChar n := by simpa using hc
      subst this
      unfold digitChar
      interval_cases n <;> decide
    · rw [if_neg hn] at hc
      rcases List.mem_append.mp hc with h | h
      · exact ih _ c h
      · have : c = digitChar (n % 10) := by simpa using h
        subst this
        unfold digitChar
        have : n % 10 < 10 := Nat.mod_lt n (by omega)
        interval_cases hni : (n % 10) <;> decide

/-- The decimal printer yields a nonempty string. -/
theorem natToChars_ne_nil (n : Nat) : natToChars n ≠ [] := by
  rw [natToChars, natToCharsAux]
  by_cases hn : n < 10
  · simp [hn]
  · simp [hn]

/-- A digit character is neither a newline nor the letter `d`. -/
theorem digit_safe (c : Char) (h : c.isDigit = true) : c ≠ '\n' ∧ c ≠ 'd' := by
  constructor
  · intro he; rw [he] at h; revert h; decide
  · intro he; rw [he] at h; revert h; decide

/-- `takeDigits` consumes exactly a digit run followed by a non-digit. -/
theorem takeDigits_exact : ∀ (ds : List Char), (∀ c ∈ ds, c.isDigit = true) →
    ∀ (rest : List Char), (∀ r rs, rest = r :: rs → r.isDigit = false) →
    takeDigits (ds ++ rest) = (ds, rest) := by
  intro ds
  induction ds with
  | nil =>
    intro _ rest hr
    cases rest with
    | nil => rfl
    | cons r rs =>
      rw [List.nil_append, takeDigits, if_neg (by simp [hr r rs rfl])]
  | cons d ds' ih =>
    intro h rest hr
    have hd := h d (List.mem_cons_self _ _)
    rw [List.cons_append, takeDigits, if_pos hd,
      ih (fun c hc => h c (List.mem_cons_of_mem _ hc)) rest hr]

/-- Parsing the synthetic hunk header `@@ -0,0 +1,<digits> @@`. -/
theorem parseHunkHeader_synth (ds : List Char) (hne : ds ≠ [])
    (hdig : ∀ c ∈ ds, c.isDigit = true) :
    parseHunkHeader (("@@ -0,0 +1,".toList) ++ ds ++ (" @@".toList)) =
      some (0, 0, 1, digitsToNat ds) := by
  have htd : takeDigits (ds ++ (" @@".toList)) = (ds, " @@".toList) :=
    takeDigits_exact ds hdig _ (by
      intro r rs h
      rw [show (" @@".toList) = ' ' :: '@' :: '@' :: [] from rfl] at h
      cases h
      decide)
  have e1 : takeDigits ('0' :: ',' :: '0' :: ' ' :: '+' :: '1' :: ',' ::
      (ds ++ (" @@".toList))) =
      (['0'], ',' :: '0' :: ' ' :: '+' :: '1' :: ',' :: (ds ++ (" @@".toList))) := by
    rw [takeDigits, if_pos (by decide), takeDigits, if_neg (by decide)]
  have e2a : takeDigits ('0' :: ' ' :: '+' :: '1' :: ',' :: (ds ++ (" @@".toList))) =
      (['0'], ' ' :: '+' :: '1' :: ',' :: (ds ++ (" @@".toList))) := by
    rw [takeDigits, if_pos (by decide), takeDigits, if_neg (by decide)]
  have e2 : optCount (',' :: '0' :: ' ' :: '+' :: '1' :: ',' ::
      (ds ++ (" @@".toList))) =
      (some ['0'], ' ' :: '+' :: '1' :: ',' :: (ds ++ (" @@".toList))) := by
    rw [optCount, e2a]
    rfl
  have e3 : takeDigits ('1' :: ',' :: (ds ++ (" @@".toList))) =
      (['1'], ',' :: (ds ++ (" @@".toList))) := by
    rw [takeDigits, if_pos (by decide), takeDigits, if_neg (by decide)]
  have e4 : optCount (',' :: (ds ++ (" @@".toList))) = (some ds, " @@".toList) := by
    rw [optCount, htd]
    simp [hne]
  have hline : ("@@ -0,0 +1,".toList) ++ ds ++ (" @@".toList) =
      '@' :: '@' :: ' ' :: '-' :: '0' :: ',' :: '0' :: ' ' :: '+' :: '1' :: ',' ::
        (ds ++ (" @@".toList)) := by
    simp
  have d0 : digitsToNat ['0'] = 0 := by decide
  have d1 : digitsToNat ['1'] = 1 := by decide
  rw [hline, parseHunkHeader]
  rw [if_pos (by simp [List.isPrefixOf])]
  simp only [List.drop_succ_cons, List.drop_zero, e1, e2, e3, e4]
  simp [List.isPrefixOf, d0, d1]

/-- A line that is no hunk header is ignored when no chunk is open. -/
theorem chunkStep_ignore (st : ChunkState) (l : List Char)
    (hcur : st.cur = none)
    (hpre : (['@', '@'] : List Char).isPrefixOf l = false) :
    chunkStep st l = st := by
  rw [chunkStep.eq_def, if_neg (by simp [hpre])]
  cases l with
  | nil => rw [hcur]
  | cons c cs => rw [hcur]

/-- The empty line is always ignored by the scan. -/
theorem chunkStep_empty (st : ChunkState) : chunkStep st [] = st := by
  rw [chunkStep.eq_def, if_neg (by decide)]
  obtain ⟨chs, cur, o, n⟩ := st
  cases cur <;> rfl

/-- A matched hunk header on the initial state opens a fresh chunk. -/
theorem chunkStep_header (st : ChunkState) (l : List Char)
    (os ol ns nl : Nat) (hcur : st.cur = none)
    (hpre : (['@', '@'] : List Char).isPrefixOf l = true)
    (hh : parseHunkHeader l = some (os, ol, ns, nl)) :
    chunkStep st l = ⟨st.chunks, some ⟨os, ol, ns, nl, []⟩, os, ns⟩ := by
  rw [chunkStep.eq_def, if_pos hpre, hh, hcur]
  simp

/-- Every line built from `+`-prefixed raw lines is typed `added`. -/
theorem buildLines_plus : ∀ (ls : List (List Char)) (o n : Nat) (x : DiffLine),
    x ∈ buildLines o n (ls.map (fun l => '+' :: l)) → x.type = LineType.added := by
  intro ls
  induction ls with
  | nil => intro o n x hx; simp [buildLines] at hx
  | cons l ls' ih =>
    intro o n x hx
    rw [List.map_cons, buildLines_cons_content _ _ _ _ _ (by decide)] at hx
    rcases List.mem_cons.mp hx with h | h
    · subst h
      rfl
    · exact ih _ _ x h

/-- `maxOfList` of a nonempty list is defined. -/
theorem maxOfList_ne_nil (l : List Nat) (h : l ≠ []) : ∃ m, maxOfList l = some m := by
  have aux : ∀ (l' : List Nat) (x : Nat), ∃ m,
      l'.foldl (fun acc y => match acc with
        | none => some y
        | some m => some (Nat.max m y)) (some x) = some m := by
    intro l'
    induction l' with
    | nil => intro x; exact ⟨x, rfl⟩
    | cons y ys ih => intro x; simpa using ih (Nat.max x y)
  cases l with
  | nil => exact absurd rfl h
  | cons x xs =>
    rw [maxOfList, List.foldl_cons]
    exact aux xs x

/-- The synthetic file-pair line is matched by the `a/ b/` pattern. -/
theorem matchFilePair_synth (f : List Char) (hne : f ≠ []) (hnl : '\n' ∉ f) :
    ∃ g1 g2, matchFilePair (syntheticFirstLine f) = some (g1, g2) := by
  have hlen : 0 < f.length := List.length_pos.mpr hne
  have hshape : syntheticFirstLine f =
      'a' :: '/' :: (f ++ (' ' :: 'b' :: '/' :: f)) := by
    simp [syntheticFirstLine]
  have hmem : '\n' ∉ ('a' :: '/' :: (f ++ (' ' :: 'b' :: '/' :: f))) := by
    intro h
    simp only [List.mem_cons, List.mem_append] at h
    rcases h with h | h | h | h | h | h | h
    · exact absurd h (by decide)
    · exact absurd h (by decide)
    · exact hnl h
    · exact absurd h (by decide)
    · exact absurd h (by decide)
    · exact absurd h (by decide)
    · exact hnl h
  have hcontains : (('a' :: '/' :: (f ++ (' ' :: 'b' :: '/' :: f)))).contains '\n' =
      false := by simpa using hmem
  have hlenrest : (f ++ (' ' :: 'b' :: '/' :: f)).length = f.length + (3 + f.length) := by
    simp only [List.length_append, List.length_cons]
    omega
  have hcand : f.length ∈ (List.range (f ++ (' ' :: 'b' :: '/' :: f)).length).filter
      (fun p => decide (1 ≤ p) &&
        ((" b/".toList).isPrefixOf ((f ++ (' ' :: 'b' :: '/' :: f)).drop p)) &&
        decide (p + 3 < (f ++ (' ' :: 'b' :: '/' :: f)).length)) := by
    rw [List.mem_filter]
    constructor
    · rw [List.mem_range, hlenrest]
      omega
    · have hdrop : (f ++ (' ' :: 'b' :: '/' :: f)).drop f.length =
          ' ' :: 'b' :: '/' :: f := List.drop_left f _
      have hp : (" b/".toList).isPrefixOf (' ' :: 'b' :: '/' :: f) = true := by
        have := isPrefixOf_append_self (" b/".toList) f
        simpa using this
      rw [hdrop, hp, hlenrest]
      simp
      omega
  obtain ⟨m, hm⟩ := maxOfList_ne_nil _ (List.ne_nil_of_mem hcand)
  have hred : matchFilePair ('a' :: '/' :: (f ++ (' ' :: 'b' :: '/' :: f))) =
      (match maxOfList ((List.range (f ++ (' ' :: 'b' :: '/' :: f)).length).filter
        (fun p => decide (1 ≤ p) &&
          ((" b/".toList).isPrefixOf ((f ++ (' ' :: 'b' :: '/' :: f)).drop p)) &&
          decide (p + 3 < (f ++ (' ' :: 'b' :: '/' :: f)).length))) with
      | some p => some ((f ++ (' ' :: 'b' :: '/' :: f)).take p,
          (f ++ (' ' :: 'b' :: '/' :: f)).drop (p + 3))
      | none => none) := by
    rw [matchFilePair.eq_def, if_neg (by rw [hcontains]; exact Bool.false_ne_true)]
    rfl
  refine ⟨(f ++ (' ' :: 'b' :: '/' :: f)).take m,
    (f ++ (' ' :: 'b' :: '/' :: f)).drop (m + 3), ?_⟩
  rw [hshape, hred, hm]

/-- The synthetic file-pair line is newline-free for a newline-free path. -/
theorem syntheticFirstLine_no_nl (f : List Char) (hnl : '\n' ∉ f) :
    '\n' ∉ syntheticFirstLine f := by
  rw [show syntheticFirstLine f = 'a' :: '/' :: (f ++ (' ' :: 'b' :: '/' :: f)) from by
    simp [syntheticFirstLine]]
  intro h
  simp only [List.mem_cons, List.mem_append] at h
  rcases h with h | h | h | h | h | h | h
  · exact absurd h (by decide)
  · exact absurd h (by decide)
  · exact hnl h
  · exact absurd h (by decide)
  · exact absurd h (by decide)
  · exact absurd h (by decide)
  · exact hnl h

/-- Every tail line of a synthetic block is newline-free and does not start
with `d`, so the block splitter scans over it. -/
theorem syntheticTail_safe (f ct : List Char) (hnl : '\n' ∉ f) :
    ∀ l ∈ syntheticTailLines f ct, '\n' ∉ l ∧ l.head? ≠ some 'd' := by
  intro l hl
  simp only [syntheticTailLines, List.mem_append, List.mem_cons, List.mem_map,
    List.not_mem_nil, or_false] at hl
  rcases hl with (h | h | h | h | h) | ⟨x, hx, rfl⟩
  · subst h; constructor
    · decide
    · decide
  · subst h; constructor
    · decide
    · decide
  · subst h; constructor
    · decide
    · decide
  · subst h; constructor
    · intro hx
      rcases List.mem_append.mp hx with hx | hx
      · exact absurd hx (by decide)
      · exact hnl hx
    · intro hx
      rw [show ((("+++ b/".toList) ++ f).head? : Option Char) = some '+' from rfl] at hx
      exact absurd hx (by decide)
  · subst h; constructor
    · intro hx
      rcases List.mem_append.mp hx with hx | hx
      · rcases List.mem_append.mp hx with hy | hy
        · exact absurd hy (by decide)
        · have hd := natToCharsAux_digits _ _ _ hy
          exact (digit_safe _ hd).1 rfl
      · exact absurd hx (by decide)
    · intro hx
      rw [show (((("@@ -0,0 +1,".toList) ++ natToChars (splitLines ct).length ++
        (" @@".toList))).head? : Option Char) = some '@' from by
          rw [show ("@@ -0,0 +1,".toList) ++ natToChars (splitLines ct).length ++
            (" @@".toList) = '@' :: ('@' :: ' ' :: '-' :: '0' :: ',' :: '0' :: ' ' ::
              '+' :: '1' :: ',' :: (natToChars (splitLines ct).length ++
                (" @@".toList))) from by simp]
          rfl] at hx
      exact absurd hx (by decide)
  · constructor
    · intro hmem
      rcases List.mem_cons.mp hmem with h' | h'
      · exact absurd h' (by decide)
      · exact splitLines_no_nl ct x hx h'
    · intro hx'
      rw [show (('+' :: x).head? : Option Char) = some '+' from rfl] at hx'
      exact absurd hx' (by decide)

/-- A synthetic block is the separator followed by its body. -/
theorem syntheticBlock_eq (f ct : List Char) :
    syntheticBlock f ct = marker ++ syntheticBody f ct := by
  have hfun : ((fun l => l ++ ['\n']) ∘ fun l => ('+' :: l) : List Char → List Char) =
      (fun l => '+' :: (l ++ ['\n'])) := by
    funext l
    simp
  simp [syntheticBlock, syntheticBody, syntheticFirstLine, syntheticTailLines,
    joinLines, marker, hfun]

/-- Splitting the concatenation of synthetic blocks yields exactly the
bodies (after the leading empty piece). -/
theorem splitBlocks_synth : ∀ (bs : List (List Char × List Char)),
    (∀ p ∈ bs, '\n' ∉ p.1) → ∀ (acc : List Char),
    splitBlocksAux ((bs.map (fun p => syntheticBlock p.1 p.2)).flatten) acc true 0 =
      acc.reverse :: bs.map (fun p => syntheticBody p.1 p.2) := by
  intro bs
  induction bs with
  | nil => intro _ acc; simp [splitBlocksAux]
  | cons p ps ih =>
    intro h acc
    obtain ⟨f, ct⟩ := p
    have hnl : '\n' ∉ f := h (f, ct) (List.mem_cons_self _ _)
    rw [List.map_cons, List.flatten_cons, syntheticBlock_eq, List.append_assoc,
      splitBlocksAux_marker]
    rw [show syntheticBody f ct ++ ((ps.map (fun p => syntheticBlock p.1 p.2)).flatten) =
      syntheticFirstLine f ++ ('\n' :: (joinLines (syntheticTailLines f ct) ++
        ((ps.map (fun p => syntheticBlock p.1 p.2)).flatten))) from by
      simp [syntheticBody, List.append_assoc]]
    rw [splitBlocksAux_seg _ (syntheticFirstLine_no_nl f hnl), splitBlocksAux_mid,
      show (('\n' : Char) == '\n') = true from rfl,
      splitBlocksAux_lines _ (syntheticTail_safe f ct hnl),
      ih (fun q hq => h q (List.mem_cons_of_mem _ hq))]
    simp [syntheticBody, List.reverse_append, List.append_assoc]

/-- `createSyntheticDiffForAllFiles` concatenates one block per readable
file. -/
theorem createSyntheticDiff_eq (read : List Char → Option (List Char))
    (files : List (List Char)) :
    createSyntheticDiff read files =
      ((files.filterMap (fun f => (read f).map (fun ct => (f, ct)))).map
        (fun p => syntheticBlock p.1 p.2)).flatten := by
  have aux : ∀ (fs : List (List Char)) (acc : List Char),
      fs.foldl (fun acc f =>
        match read f with
        | some content => acc ++ syntheticBlock f content
        | none => acc) acc =
      acc ++ ((fs.filterMap (fun f => (read f).map (fun ct => (f, ct)))).map
        (fun p => syntheticBlock p.1 p.2)).flatten := by
    intro fs
    induction fs with
    | nil => intro acc; simp
    | cons f fs' ih =>
      intro acc
      rw [List.foldl_cons]
      show List.foldl (fun acc f =>
          match read f with
          | some content => acc ++ syntheticBlock f content
          | none => acc)
        (match read f with
          | some content => acc ++ syntheticBlock f content
          | none => acc) fs' =
        acc ++ ((((f :: fs').filterMap (fun f => (read f).map (fun ct => (f, ct)))).map
          (fun p => syntheticBlock p.1 p.2)).flatten)
      cases hr : read f with
      | none =>
        rw [ih]
        simp [List.filterMap_cons, hr]
      | some ct =>
        rw [ih]
        simp [List.filterMap_cons, hr, List.append_assoc]
  rw [createSyntheticDiff, aux]
  simp

/-- Membership in the readable-pair list determines the read result. -/
theorem readablePairs_mem (read : List Char → Option (List Char))
    (files : List (List Char)) (p : List Char × List Char)
    (hp : p ∈ files.filterMap (fun f => (read f).map (fun ct => (f, ct)))) :
    p.1 ∈ files ∧ read p.1 = some p.2 := by
  rcases List.mem_filterMap.mp hp with ⟨a, ha, hfa⟩
  rcases Option.map_eq_some'.mp hfa with ⟨ct, hct, heq⟩
  subst heq
  exact ⟨ha, hct⟩

/-- The readable-pair list has one entry per readable file. -/
theorem readablePairs_length (read : List Char → Option (List Char))
    (files : List (List Char)) :
    (files.filterMap (fun f => (read f).map (fun ct => (f, ct)))).length =
      (files.filter (fun f => (read f).isSome)).length := by
  induction files with
  | nil => rfl
  | cons f fs ih =>
    cases hr : read f <;> simp [List.filterMap_cons, List.filter_cons, hr, ih]

/-- Evaluation of `parseFileBlock` on a recognized new-file block with a
binary marker. -/
theorem parseFileBlock_eval_binary (h : List Char) (rest : List (List Char))
    (oldN newN : List Char) (hm : matchFilePair h = some (oldN, newN))
    (hnew : hasMarkerLine ("new file mode".toList) (h :: rest) = true)
    (hbin : hasBinaryLine (h :: rest) = true) :
    parseFileBlock (h :: rest) =
      some ⟨newN, none, FileStatus.added, 0, 0, [], some true,
        some (isImageFile newN)⟩ := by
  rw [parseFileBlock, hm]
  simp only [hnew, hbin]
  simp

/-- Evaluation of `parseFileBlock` on a recognized new-file block without a
binary marker. -/
theorem parseFileBlock_eval_nonbinary (h : List Char) (rest : List (List Char))
    (oldN newN : List Char) (hm : matchFilePair h = some (oldN, newN))
    (hnew : hasMarkerLine ("new file mode".toList) (h :: rest) = true)
    (hbin : hasBinaryLine (h :: rest) = false) :
    parseFileBlock (h :: rest) =
      some ⟨newN, none, FileStatus.added,
        ((((parseChunks (h :: rest)).map DiffChunk.lines).flatten).filter
          (fun l => l.type == LineType.added)).length,
        ((((parseChunks (h :: rest)).map DiffChunk.lines).flatten).filter
          (fun l => l.type == LineType.deleted)).length,
        parseChunks (h :: rest), none, none⟩ := by
  rw [parseFileBlock, hm]
  simp only [hnew, hbin]
  simp

/-- The hunk scan of a synthetic block produces a single chunk holding the
`+`-typed content lines. -/
theorem parseChunks_synth (f ct : List Char) :
    parseChunks (syntheticFirstLine f :: (syntheticTailLines f ct ++ [[]])) =
      [⟨0, 0, 1, digitsToNat (natToChars (splitLines ct).length),
        buildLines 0 1 ((splitLines ct).map (fun l => '+' :: l))⟩] := by
  have hT5 : parseHunkHeader (("@@ -0,0 +1,".toList) ++
      natToChars (splitLines ct).length ++ (" @@".toList)) =
      some (0, 0, 1, digitsToNat (natToChars (splitLines ct).length)) :=
    parseHunkHeader_synth _ (natToChars_ne_nil _)
      (fun c hc => natToCharsAux_digits _ _ c hc)
  have hpre5 : (['@', '@'] : List Char).isPrefixOf (("@@ -0,0 +1,".toList) ++
      natToChars (splitLines ct).length ++ (" @@".toList)) = true := by
    rw [show ("@@ -0,0 +1,".toList) ++ natToChars (splitLines ct).length ++
      (" @@".toList) = '@' :: '@' :: (' ' :: '-' :: '0' :: ',' :: '0' :: ' ' ::
        '+' :: '1' :: ',' :: (natToChars (splitLines ct).length ++
          (" @@".toList))) from by simp]
    rfl
  have hlines : syntheticFirstLine f :: (syntheticTailLines f ct ++ [[]]) =
      syntheticFirstLine f :: ("new file mode 100644".toList) ::
      ("index 0000000..fffffff".toList) :: ("--- /dev/null".toList) ::
      (("+++ b/".toList) ++ f) ::
      (("@@ -0,0 +1,".toList) ++ natToChars (splitLines ct).length ++
        (" @@".toList)) ::
      ((splitLines ct).map (fun l => '+' :: l) ++ [[]]) := by
    simp [syntheticTailLines]
  rw [hlines]
  simp only [parseChunks, List.foldl_cons]
  rw [chunkStep_ignore initChunkState _ rfl (isPrefixOf_false_head '@' _ _ (by
    rw [show ((syntheticFirstLine f).head? : Option Char) = some 'a' from by
      rw [show syntheticFirstLine f = 'a' :: '/' :: (f ++ (' ' :: 'b' :: '/' :: f))
        from by simp [syntheticFirstLine]]
      rfl]
    decide))]
  rw [show chunkStep initChunkState ("new file mode 100644".toList) = initChunkState
    from by decide]
  rw [show chunkStep initChunkState ("index 0000000..fffffff".toList) = initChunkState
    from by decide]
  rw [show chunkStep initChunkState ("--- /dev/null".toList) = initChunkState
    from by decide]
  rw [chunkStep_ignore initChunkState _ rfl (isPrefixOf_false_head '@' _ _ (by
    rw [show (((("+++ b/".toList) ++ f)).head? : Option Char) = some '+' from rfl]
    decide))]
  rw [chunkStep_header initChunkState _ _ _ _ _ rfl hpre5 hT5]
  rw [List.foldl_append]
  rw [foldl_content ((splitLines ct).map (fun l => '+' :: l)) _
    ⟨0, 0, 1, digitsToNat (natToChars (splitLines ct).length), []⟩ rfl
    (fun l hl => by
      rcases List.mem_map.mp hl with ⟨x, _, rfl⟩
      rfl)]
  simp only [List.foldl_cons, List.foldl_nil, chunkStep_empty]
  simp [initChunkState]

/-- A parsed synthetic block is an added file whose lines are all typed
`added`. -/
theorem parseFileBlock_synth (f ct : List Char) (hne : f ≠ []) (hnl : '\n' ∉ f) :
    ∃ df, parseFileBlock (splitLines (syntheticBody f ct)) = some df ∧
      df.status = FileStatus.added ∧
      ∀ ch ∈ df.chunks, ∀ l ∈ ch.lines, l.type = LineType.added := by
  have hsplit : splitLines (syntheticBody f ct) =
      syntheticFirstLine f :: (syntheticTailLines f ct ++ [[]]) := by
    rw [syntheticBody, show syntheticFirstLine f ++ ['\n'] ++
        joinLines (syntheticTailLines f ct) =
        syntheticFirstLine f ++ ('\n' :: joinLines (syntheticTailLines f ct)) from by
      simp,
      splitLines_append _ (syntheticFirstLine_no_nl f hnl),
      splitLines_joinLines _ (fun l hl => (syntheticTail_safe f ct hnl l hl).1)]
  obtain ⟨g1, g2, hmatch⟩ := matchFilePair_synth f hne hnl
  have hnew : hasMarkerLine ("new file mode".toList)
      (syntheticFirstLine f :: (syntheticTailLines f ct ++ [[]])) = true := by
    rw [hasMarkerLine, List.any_eq_true]
    exact ⟨("new file mode 100644".toList), by simp [syntheticTailLines], by decide⟩
  rw [hsplit]
  by_cases hbin : hasBinaryLine
      (syntheticFirstLine f :: (syntheticTailLines f ct ++ [[]])) = true
  · exact ⟨_, parseFileBlock_eval_binary _ _ _ _ hmatch hnew hbin, rfl, by simp⟩
  · have hbin' : hasBinaryLine
        (syntheticFirstLine f :: (syntheticTailLines f ct ++ [[]])) = false := by
      rwa [Bool.not_eq_true] at hbin
    refine ⟨_, parseFileBlock_eval_nonbinary _ _ _ _ hmatch hnew hbin', rfl, ?_⟩
    intro ch hch l hl
    rw [parseChunks_synth f ct] at hch
    have hcheq : ch = ⟨0, 0, 1, digitsToNat (natToChars (splitLines ct).length),
        buildLines 0 1 ((splitLines ct).map (fun l => '+' :: l))⟩ := by
      simpa using hch
    subst hcheq
    exact buildLines_plus _ _ _ l hl

/-- A synthetic block body is not blank, so the block filter keeps it. -/
theorem syntheticBody_nonblank (f ct : List Char) :
    (syntheticBody f ct).any (fun c => !(isWhite c)) = true := by
  rw [show syntheticBody f ct = 'a' :: (('/' :: (f ++ (' ' :: 'b' :: '/' :: f))) ++
      ['\n'] ++ joinLines (syntheticTailLines f ct)) from by
    simp [syntheticBody, syntheticFirstLine]]
  rw [List.any_cons]
  rw [show (!(isWhite 'a')) = true from by decide]
  rfl

/-- Unreadable files contribute nothing to the readable-pair list. -/
theorem readablePairs_filter (read : List Char → Option (List Char)) :
    ∀ (fs : List (List Char)),
    (fs.filter (fun f => (read f).isSome)).filterMap
      (fun f => (read f).map (fun ct => (f, ct))) =
    fs.filterMap (fun f => (read f).map (fun ct => (f, ct))) := by
  intro fs
  induction fs with
  | nil => rfl
  | cons f fs' ih =>
    cases hr : read f <;>
      simp [List.filter_cons, List.filterMap_cons, hr, ih]

/-- A `filterMap` whose function always succeeds preserves the length. -/
theorem length_filterMap_all (bs : List (List Char × List Char))
    (h : ∀ p ∈ bs, (parseFileBlock (splitLines (syntheticBody p.1 p.2))).isSome = true) :
    ((bs.map (fun p => syntheticBody p.1 p.2)).filterMap
      (fun b => parseFileBlock (splitLines b))).length = bs.length := by
  induction bs with
  | nil => rfl
  | cons p ps ih =>
    rcases Option.isSome_iff_exists.mp (h p (List.mem_cons_self _ _)) with ⟨df, hdf⟩
    simp [List.filterMap_cons, hdf]
    intro a b hab
    exact h (a, b) (List.mem_cons_of_mem _ hab)

/-- C8 (amended): in the synthetic no-history fallback, unreadable paths are
skipped without affecting the rest; provided every readable path is
nonempty and newline-free, each readable path contributes exactly one
parsed `DiffFile`, every parsed file has status `added` and only
`added`-typed lines; concretely, two readable files and one unreadable file
yield exactly two added entries, and an empty file list yields empty text
and zero files. -/
theorem c8_synthetic_fallback :
    (∀ (read : List Char → Option (List Char)) (files : List (List Char)),
      createSyntheticDiff read files =
        createSyntheticDiff read (files.filter (fun f => (read f).isSome))) ∧
    (∀ (read : List Char → Option (List Char)) (files : List (List Char)),
      (∀ f ∈ files, (read f).isSome = true → f ≠ [] ∧ '\n' ∉ f) →
      (parseDiffOutput (createSyntheticDiff read files)).length =
        (files.filter (fun f => (read f).isSome)).length ∧
      ∀ df ∈ parseDiffOutput (createSyntheticDiff read files),
        df.status = FileStatus.added ∧
        ∀ ch ∈ df.chunks, ∀ l ∈ ch.lines, l.type = LineType.added) ∧
    ((parseDiffOutput (createSyntheticDiff sampleRead
        [("a.txt".toList), ("c.txt".toList), ("b.txt".toList)])).map
      (fun df => df.status) = [FileStatus.added, FileStatus.added]) ∧
    (∀ (read : List Char → Option (List Char)),
      createSyntheticDiff read [] = [] ∧ parseDiffOutput [] = []) := by
  refine ⟨?_, ?_, by decide, fun read => ⟨rfl, rfl⟩⟩
  · intro read files
    rw [createSyntheticDiff_eq, createSyntheticDiff_eq, readablePairs_filter]
  · intro read files hvalid
    have hbsnl : ∀ p ∈ files.filterMap (fun f => (read f).map (fun ct => (f, ct))),
        '\n' ∉ p.1 := by
      intro p hp
      obtain ⟨hmem, hread⟩ := readablePairs_mem read files p hp
      exact (hvalid p.1 hmem (by rw [hread]; rfl)).2
    have hbsne : ∀ p ∈ files.filterMap (fun f => (read f).map (fun ct => (f, ct))),
        p.1 ≠ [] := by
      intro p hp
      obtain ⟨hmem, hread⟩ := readablePairs_mem read files p hp
      exact (hvalid p.1 hmem (by rw [hread]; rfl)).1
    have hout : parseDiffOutput (createSyntheticDiff read files) =
        (((files.filterMap (fun f => (read f).map (fun ct => (f, ct)))).map
          (fun p => syntheticBody p.1 p.2)).filterMap
          (fun b => parseFileBlock (splitLines b))) := by
      rw [createSyntheticDiff_eq, parseDiffOutput, splitBlocks,
        splitBlocks_synth _ hbsnl []]
      rw [show (([] : List Char).reverse ::
        (files.filterMap (fun f => (read f).map (fun ct => (f, ct)))).map
          (fun p => syntheticBody p.1 p.2)) =
        ([] : List Char) ::
        (files.filterMap (fun f => (read f).map (fun ct => (f, ct)))).map
          (fun p => syntheticBody p.1 p.2) from by simp]
      rw [List.filter_cons_of_neg (by simp)]
      rw [List.filter_eq_self.mpr (by
        intro b hb
        rcases List.mem_map.mp hb with ⟨p, hp, rfl⟩
        exact syntheticBody_nonblank p.1 p.2)]
    constructor
    · rw [hout, length_filterMap_all _ (by
        intro p hp
        obtain ⟨df, hdf, _, _⟩ := parseFileBlock_synth p.1 p.2 (hbsne p hp) (hbsnl p hp)
        rw [hdf]
        rfl), readablePairs_length]
    · intro df hdf
      rw [hout] at hdf
      rcases List.mem_filterMap.mp hdf with ⟨b, hb, hpb⟩
      rcases List.mem_map.mp hb with ⟨p, hp, rfl⟩
      obtain ⟨df', hdf', hstatus, hlines⟩ :=
        parseFileBlock_synth p.1 p.2 (hbsne p hp) (hbsnl p hp)
      rw [hdf'] at hpb
      obtain rfl := Option.some.inj hpb
      exact ⟨hstatus, hlines⟩

/-- C8 counterexample: a readable path containing a newline breaks the
`a/<old> b/<new>` header of its synthetic block, so with two readable files
(one of them newline-named) and one unreadable file the parsed result has
one entry, not two. -/
theorem c8_counterexample :
    (([("a.txt".toList), ("x\ny".toList), ("c.txt".toList)].filter
      (fun f => (newlineRead f).isSome)).length = 2) ∧
    (parseDiffOutput (createSyntheticDiff newlineRead
      [("a.txt".toList), ("x\ny".toList), ("c.txt".toList)])).length = 1 := by
  constructor
  · decide
  · decide

/-- C8 amended-claim witness: concrete instantiations of each clause. -/
theorem c8_synthetic_fallback_witness :
    (createSyntheticDiff sampleRead [("a.txt".toList), ("q".toList)] =
      createSyntheticDiff sampleRead
        ([("a.txt".toList), ("q".toList)].filter (fun f => (sampleRead f).isSome))) ∧
    ((parseDiffOutput (createSyntheticDiff sampleRead
        [("a.txt".toList), ("b.txt".toList)])).length =
      ([("a.txt".toList), ("b.txt".toList)].filter
        (fun f => (sampleRead f).isSome)).length) ∧
    createSyntheticDiff sampleRead [] = [] :=
  ⟨c8_synthetic_fallback.1 sampleRead _,
   (c8_synthetic_fallback.2.1 sampleRead _ (by decide)).1,
   (c8_synthetic_fallback.2.2.2 sampleRead).1⟩

end Compeek